import Mathlib

/-!
Verification of the ticket-sheets booking pipeline.

This file contains a shallow embedding, in Lean 4, of the string-processing,
parsing, sorting, filtering, aggregation and tally-layout functions of the
ticket-sheets repository (`parse_ticket_sheet.py`, `event_breakdown.py`,
`server.py` and the `ticket_sheets` package), together with theorems that
settle the frozen claims about the program.

Modelling conventions:
* Python strings are modelled as `List Char` (`Str` below).  All string
  operations used by the program (`splitlines`, `split`, `str.split()`,
  `replace`, `count`, `find`, `lower`, slicing) are defined here on
  `List Char`, following the Python semantics for the forms the program uses.
* Python `float` prices are modelled as `ℚ`.  All prices handled by the
  program are small decimal fractions, for which float arithmetic coincides
  with rational arithmetic.
* Python dicts are modelled as insertion-ordered association lists.
* Fallible code paths (statements that can raise `ValueError`, `KeyError`,
  `IndexError`, ...) are modelled with `Option`; `none` means the Python code
  raises at that point.
-/

set_option linter.unusedVariables false

namespace TicketSheets

/-- Python strings, modelled as lists of characters. -/
abbrev Str := List Char

/-! ### Digits and decimal numbers -/

/-- Numeric value of a decimal digit character. -/
def digitVal (c : Char) : Nat := c.toNat - 48

/-- The character for a decimal digit. -/
def digitChar (n : Nat) : Char := Char.ofNat (48 + n)

/-- Value of a string of decimal digits (most significant first). -/
def digitsVal (l : Str) : Nat := l.foldl (fun a c => 10 * a + digitVal c) 0

/-- Standard decimal rendering of a natural number, no leading zeros.
(Defined with a fuel argument so that it is structurally recursive and
reduces inside the kernel; the fuel `n + 1` always suffices.) -/
def natCharsAux : Nat → Nat → Str
  | 0, _ => []
  | fuel + 1, n =>
    if n < 10 then [digitChar n]
    else natCharsAux fuel (n / 10) ++ [digitChar (n % 10)]

def natChars (n : Nat) : Str := natCharsAux (n + 1) n

/-- Python `%02d`: the number rendered to (at least) two digits, zero padded. -/
def pad2 (n : Nat) : Str := if n < 10 then '0' :: natChars n else natChars n

/-- Decimal rendering of an integer (Python `str(int)` / f-string `{int}`). -/
def intChars (i : Int) : Str :=
  if i < 0 then '-' :: natChars i.natAbs else natChars i.natAbs

/-- Check that every character is a decimal digit. -/
def allDigits (l : Str) : Bool := l.all (fun c => c.isDigit)

/-- Python `int(s)` on a trimmed token: an optional sign followed by digits.
(The program only ever passes tokens without surrounding whitespace.) -/
def parseInt (l : Str) : Option Int :=
  match l with
  | '-' :: rest =>
      if allDigits rest ∧ rest ≠ [] then some (-(digitsVal rest : Int)) else none
  | '+' :: rest =>
      if allDigits rest ∧ rest ≠ [] then some (digitsVal rest : Int) else none
  | _ => if allDigits l ∧ l ≠ [] then some (digitsVal l : Int) else none

/-! ### Splitting -/

/-- Split at every occurrence of a separator character.  This is Python
`s.split(sep)`: it returns `n + 1` parts for `n` separators, so it never
returns an empty list and empty parts are kept. -/
def splitOnChar (sep : Char) : Str → List Str
  | [] => [[]]
  | c :: rest =>
    if c = sep then [] :: splitOnChar sep rest
    else
      match splitOnChar sep rest with
      | [] => [[c]]
      | p :: ps => (c :: p) :: ps

/-- Python `s.split(sep, maxsplit=1)` when the separator occurs, i.e. the part
before the first separator and the part after it; `none` when the separator
does not occur (unpacking the result then raises `ValueError`). -/
def splitFirst (sep : Char) : Str → Option (Str × Str)
  | [] => none
  | c :: rest =>
    if c = sep then some ([], rest)
    else (splitFirst sep rest).map (fun p => (c :: p.1, p.2))

/-- Python `s.splitlines()` for newline-delimited data: split at each `'\n'`;
a trailing newline does not produce a final empty part, and the empty string
has no lines.  (The CSV fields processed by the program use `'\n'` line
terminators only.) -/
def splitlines (l : Str) : List Str :=
  if l = [] then []
  else
    let ps := splitOnChar '\n' l
    if ps.getLast? = some [] then ps.dropLast else ps

/-- Python `'\n'.join(lines)`. -/
def joinLines : List Str → Str
  | [] => []
  | [x] => x
  | x :: y :: xs => x ++ '\n' :: joinLines (y :: xs)

/-- Drop a single trailing empty element from a list of lines.  This is the
normalisation performed by a `join`/`splitlines` round trip. -/
def dropTrailingEmpty (ls : List Str) : List Str :=
  if ls.getLast? = some [] then ls.dropLast else ls

/-- Python `s.split()` (no argument): split on runs of whitespace, discarding
empty parts.  The data processed by the program only uses the space
character. -/
def wordsAux : Nat → Str → List Str
  | 0, _ => []
  | _ + 1, [] => []
  | fuel + 1, c :: rest =>
    if c = ' ' then wordsAux fuel rest
    else (c :: rest.takeWhile (fun d => d ≠ ' ')) ::
      wordsAux fuel (rest.dropWhile (fun d => d ≠ ' '))

def words (l : Str) : List Str := wordsAux l.length l

/-! ### Substring operations -/

/-- Boolean test that `pat` is a prefix of `l`. -/
def hasPre : Str → Str → Bool
  | [], _ => true
  | _ :: _, [] => false
  | p :: ps, c :: rest => p = c && hasPre ps rest

/-- Python `pat in s` / `s.find(pat) != -1`: substring containment. -/
def containsSub (pat : Str) : Str → Bool
  | [] => decide (pat = [])
  | c :: rest => hasPre pat (c :: rest) || containsSub pat rest

/-- Python `s.count(pat)` for a non-empty pattern `p :: ps`: the number of
non-overlapping occurrences, scanning left to right. -/
def countSubAux (p : Char) (ps : Str) : Nat → Str → Nat
  | 0, _ => 0
  | _ + 1, [] => 0
  | fuel + 1, c :: rest =>
    if hasPre (p :: ps) (c :: rest) then
      1 + countSubAux p ps fuel (rest.drop ps.length)
    else countSubAux p ps fuel rest

def countSub (p : Char) (ps : Str) (l : Str) : Nat :=
  countSubAux p ps l.length l

/-- Python `s.replace(pat, '')` for a non-empty pattern `p :: ps`: remove all
non-overlapping occurrences, scanning left to right. -/
def removeSubAux (p : Char) (ps : Str) : Nat → Str → Str
  | 0, l => l
  | _ + 1, [] => []
  | fuel + 1, c :: rest =>
    if hasPre (p :: ps) (c :: rest) then
      removeSubAux p ps fuel (rest.drop ps.length)
    else c :: removeSubAux p ps fuel rest

def removeSub (p : Char) (ps : Str) (l : Str) : Str :=
  removeSubAux p ps l.length l

/-- Python `s.lower()` (ASCII data). -/
def lowerStr (l : Str) : Str := l.map Char.toLower

/-- Case-insensitive string equality. -/
def ciEq (a b : Str) : Bool := decide (lowerStr a = lowerStr b)

/-! ### Association lists (Python dicts, insertion ordered) -/

/-- Dict lookup: `d.get(k)`. -/
def alGet {α : Type} (k : Str) : List (Str × α) → Option α
  | [] => none
  | kv :: rest => if kv.1 = k then some kv.2 else alGet k rest

/-- Dict lookup with default: `d.get(k, dflt)` / `defaultdict` read. -/
def alGetD {α : Type} (k : Str) (dflt : α) (l : List (Str × α)) : α :=
  (alGet k l).getD dflt

/-- `defaultdict(int)` update `d[k] += v`: add to the existing entry, or
append a new entry at the end (dict insertion order). -/
def alAdd (k : Str) (v : Int) : List (Str × Int) → List (Str × Int)
  | [] => [(k, v)]
  | kv :: rest => if kv.1 = k then (kv.1, kv.2 + v) :: rest else kv :: alAdd k v rest

/-- `defaultdict` read of a missing key inserts it: ensure `k` is present,
appending `(k, 0)` if it is not. -/
def alTouch (k : Str) : List (Str × Int) → List (Str × Int)
  | [] => [(k, 0)]
  | kv :: rest => if kv.1 = k then kv :: rest else kv :: alTouch k rest

/-- Dict assignment `d[k] = v`: overwrite the existing entry or append. -/
def alSet {α : Type} (k : Str) (v : α) : List (Str × α) → List (Str × α)
  | [] => [(k, v)]
  | kv :: rest => if kv.1 = k then (k, v) :: rest else kv :: alSet k v rest

/-- `del d[k]`: remove the entry (keys are unique in a dict). -/
def alErase {α : Type} (k : Str) : List (Str × α) → List (Str × α)
  | [] => []
  | kv :: rest => if kv.1 = k then rest else kv :: alErase k rest

/-- Map a fallible function over a list, failing if any element fails (a
loop whose body may raise). -/
def mapMo {α β : Type} (f : α → Option β) : List α → Option (List β)
  | [] => some []
  | x :: xs =>
    match f x, mapMo f xs with
    | some y, some ys => some (y :: ys)
    | _, _ => none

/-! ### Dates

The booking export renders dates as, e.g.,
`"Saturday November 30th 2024 11:30 AM"`.  All three date parsers in the
program first strip ordinal suffixes with
`re.sub(r'([0-9]+)(st|nd|rd|th)', r'\1', s)` and remove commas, then call
`datetime.strptime` with the format `'%A %B %d %Y %I:%M %p'`
(`event_breakdown.parse_date` uses `'%A %B %d %Y %H:%M %p'` instead).
`strptime` compiles the format to a regular expression; for these formats
that is equivalent to splitting the cleaned string on whitespace runs and
matching each token, which is how it is modelled here:
* `%A` / `%B`: a full weekday / month name, case-insensitively;
* `%d` (`3[01]|[12]\d|0[1-9]|[1-9]`): one or two digits, value 1..31;
* `%Y` (`\d\d\d\d`): exactly four digits;
* `%I` (`1[0-2]|0[1-9]|[1-9]`): one or two digits, value 1..12;
* `%H` (`2[0-3]|[0-1]\d|\d`): one or two digits, value 0..23;
* `%M` (`[0-5]\d|\d`): one or two digits, value 0..59;
* `%p`: `AM` or `PM`, case-insensitively.
The parsed fields are then validated by the `datetime` constructor
(`MINYEAR = 1`, day at most the length of the month).  With `%I`, `%p`
selects the half of the day (`hour = I % 12 + (12 if PM else 0)`); with
`%H` the `%p` field is parsed but ignored (CPython `_strptime` only applies
`AM`/`PM` to the `%I` field). -/

structure DateTime where
  year : Nat
  month : Nat
  day : Nat
  hour : Nat
  minute : Nat
deriving DecidableEq, Repr

/-- Injective rank of a calendar field tuple; comparing ranks is the
`datetime` comparison for in-range field values. -/
def DateTime.rank (d : DateTime) : Nat :=
  (((d.year * 13 + d.month) * 32 + d.day) * 24 + d.hour) * 60 + d.minute

/-- Gregorian leap year rule, as implemented by `datetime`. -/
def isLeap (y : Nat) : Bool := (y % 4 = 0 && y % 100 ≠ 0) || y % 400 = 0

/-- Number of days in a month, as validated by the `datetime` constructor. -/
def daysInMonth (y m : Nat) : Nat :=
  if m = 2 then (if isLeap y then 29 else 28)
  else if m = 4 ∨ m = 6 ∨ m = 9 ∨ m = 11 then 30
  else 31

def weekdayNames : List Str :=
  ["Monday".data, "Tuesday".data, "Wednesday".data, "Thursday".data,
   "Friday".data, "Saturday".data, "Sunday".data]

def monthNames : List Str :=
  ["January".data, "February".data, "March".data, "April".data, "May".data,
   "June".data, "July".data, "August".data, "September".data, "October".data,
   "November".data, "December".data]

/-- Does the string start with one of the ordinal suffixes `st|nd|rd|th`? -/
def isOrdSfx : Str → Bool
  | 's' :: 't' :: _ => true
  | 'n' :: 'd' :: _ => true
  | 'r' :: 'd' :: _ => true
  | 't' :: 'h' :: _ => true
  | _ => false

/-- The substitution `re.sub(r'([0-9]+)(st|nd|rd|th)', r'\1', s)`: scan left
to right; at each maximal run of digits, drop an immediately following
ordinal suffix.  (Within a digit run no shorter match is possible, because
the suffixes do not start with a digit, so the regex engine continues after
the run.) -/
def stripOrdinalsAux : Nat → Str → Str
  | 0, l => l
  | _ + 1, [] => []
  | fuel + 1, c :: rest =>
    if c.isDigit then
      (c :: rest.takeWhile Char.isDigit) ++
        stripOrdinalsAux fuel
          (if isOrdSfx (rest.dropWhile Char.isDigit) then
            (rest.dropWhile Char.isDigit).drop 2
          else rest.dropWhile Char.isDigit)
    else c :: stripOrdinalsAux fuel rest

def stripOrdinals (l : Str) : Str := stripOrdinalsAux l.length l

/-- The cleanup both parsers apply before `strptime`:
`re.sub(r'([0-9]+)(st|nd|rd|th)', r'\1', s).replace(',', '')`. -/
def cleanDate (s : Str) : Str :=
  (stripOrdinals s).filter (fun c => c ≠ ',')

/-- Case-insensitive index of a token in a list of names. -/
def findCI (names : List Str) (tok : Str) : Option Nat :=
  names.findIdx? (fun n => ciEq n tok)

/-- Parse a one-or-two digit numeric token (shared shape of the `%d`, `%I`,
`%H`, `%M` directives; the value range is checked by the caller). -/
def parse2 (tok : Str) : Option Nat :=
  if allDigits tok ∧ tok ≠ [] ∧ tok.length ≤ 2 then some (digitsVal tok) else none

/-- Parse the `%Y` directive: exactly four digits. -/
def parse4 (tok : Str) : Option Nat :=
  if allDigits tok ∧ tok.length = 4 then some (digitsVal tok) else none

/-- Parse the `%p` directive: `true` for PM. -/
def parseMer (tok : Str) : Option Bool :=
  if ciEq tok "AM".data then some false
  else if ciEq tok "PM".data then some true
  else none

/-- Validation performed by the `datetime` constructor. -/
def mkValid (y mo d h mi : Nat) : Option DateTime :=
  if 1 ≤ y ∧ 1 ≤ mo ∧ mo ≤ 12 ∧ 1 ≤ d ∧ d ≤ daysInMonth y mo ∧ h ≤ 23 ∧ mi ≤ 59 then
    some ⟨y, mo, d, h, mi⟩
  else none

/-- `datetime.strptime(s, '%A %B %d %Y %I:%M %p')`. -/
def strptime12 (s : Str) : Option DateTime := do
  match words s with
  | [wTok, moTok, dTok, yTok, hmTok, merTok] =>
    let _ ← findCI weekdayNames wTok
    let moIdx ← findCI monthNames moTok
    let d ← parse2 dTok
    if ¬ (1 ≤ d ∧ d ≤ 31) then none else
    let y ← parse4 yTok
    match splitOnChar ':' hmTok with
    | [hTok, miTok] =>
      let h ← parse2 hTok
      if ¬ (1 ≤ h ∧ h ≤ 12) then none else
      let mi ← parse2 miTok
      if ¬ (mi ≤ 59) then none else
      let pm ← parseMer merTok
      mkValid y (moIdx + 1) d (h % 12 + (if pm then 12 else 0)) mi
    | _ => none
  | _ => none

/-- `datetime.strptime(s, '%A %B %d %Y %H:%M %p')`: the hour digits are taken
literally (24-hour clock) and the parsed `AM`/`PM` marker is ignored. -/
def strptime24 (s : Str) : Option DateTime := do
  match words s with
  | [wTok, moTok, dTok, yTok, hmTok, merTok] =>
    let _ ← findCI weekdayNames wTok
    let moIdx ← findCI monthNames moTok
    let d ← parse2 dTok
    if ¬ (1 ≤ d ∧ d ≤ 31) then none else
    let y ← parse4 yTok
    match splitOnChar ':' hmTok with
    | [hTok, miTok] =>
      let h ← parse2 hTok
      if ¬ (h ≤ 23) then none else
      let mi ← parse2 miTok
      if ¬ (mi ≤ 59) then none else
      let _pm ← parseMer merTok
      mkValid y (moIdx + 1) d h mi
    | _ => none
  | _ => none

/-- `%d/%m/%y` (`strftime`: all three parts zero padded to two digits). -/
def fmtDDMMYY (dt : DateTime) : Str :=
  pad2 dt.day ++ '/' :: pad2 dt.month ++ '/' :: pad2 (dt.year % 100)

/-- `datetime.fromisoformat` of a `YYYY-MM-DD` date string, midnight. -/
def fromisoformat (s : Str) : Option DateTime :=
  match splitOnChar '-' s with
  | [yTok, moTok, dTok] =>
    if allDigits yTok ∧ yTok.length = 4 ∧ allDigits moTok ∧ moTok.length = 2 ∧
        allDigits dTok ∧ dTok.length = 2 then
      mkValid (digitsVal yTok) (digitsVal moTok) (digitsVal dTok) 0 0
    else none
  | _ => none

/-! ### Prices -/

/-- Python `float(s)` on the decimal literals occurring in the data: an
optional sign, then `digits`, `digits.digits`, `digits.` or `.digits`.
Anything else (in particular the empty string) raises `ValueError`. -/
def parseFloat (l : Str) : Option ℚ :=
  let core : Str → Option ℚ := fun s =>
    match splitOnChar '.' s with
    | [a] => if allDigits a ∧ a ≠ [] then some (digitsVal a : ℚ) else none
    | [a, b] =>
      if allDigits a ∧ allDigits b ∧ (a ≠ [] ∨ b ≠ []) then
        some ((digitsVal a : ℚ) + (digitsVal b : ℚ) / (10 : ℚ) ^ b.length)
      else none
    | _ => none
  match l with
  | '-' :: rest => (core rest).map Neg.neg
  | '+' :: rest => core rest
  | _ => core l

/-- Round to the nearest integer, ties to even (the rounding used by Python
`format(x, '.2f')` on the exactly representable amounts in this data). -/
def roundHalfEven (q : ℚ) : Int :=
  let f := Rat.floor q
  if q - f < 1/2 then f
  else if q - f > 1/2 then f + 1
  else if f % 2 = 0 then f else f + 1

/-- Python `f"{x:.2f}"` for the program's price values.  (For a negative zero
result Python would print `-0.00`; the sign of zero does not arise in this
program's data and is not modelled.) -/
def formatQ2 (q : ℚ) : Str :=
  let n := roundHalfEven (q * 100)
  (if n < 0 then ['-'] else []) ++
    natChars (n.natAbs / 100) ++ '.' :: pad2 (n.natAbs % 100)

namespace parse_ticket_sheet

/-- One row of the booking CSV, restricted to the fields read by the
functions under verification.  A field that may be absent from the export
(`booking.get(...)` / `booking['...']` with a possible `KeyError`) is an
`Option`. -/
structure Booking where
  orderId : Str
  startDate : Str
  productTitle : Str
  quantity : Str
  productPrice : Str
  priceCategories : Str
  childAgeNov : Option Str
  childAgeDec : Option Str
  childAgeNonInternet : Option Str
  accompanyingAdult : Option Str
  accompanyingSenior : Option Str
  presentType : Str
deriving DecidableEq

/-- A booking with every optional field absent and every other field empty;
concrete test bookings below override the fields they use. -/
def emptyBooking : Booking :=
  ⟨[], [], [], [], [], [], none, none, none, none, none, []⟩

/-- `parse_ticket_sheet.tidy_price`: strip the `&pound;` entity and the `£`
glyph. -/
def tidy_price (value : Str) : Str :=
  removeSub '£' [] (removeSub '&' "pound;".data value)

/-- `parse_ticket_sheet.date_sort_item`: strip ordinal suffixes and commas,
then `strptime '%A %B %d %Y %I:%M %p'`.  `none` models the `ValueError`
raised on a string not of this shape. -/
def date_sort_item (s : Str) : Option DateTime :=
  strptime12 (cleanDate s)

/-- `parse_ticket_sheet.filter_booking`:
`booking['Product title'].find(FILTER_STRING) != -1`, i.e. plain
(case-sensitive) substring containment. -/
def filter_booking (filterString : Str) (b : Booking) : Bool :=
  containsSub filterString b.productTitle

/-- Entries of the `TICKET_PRICES` table: the per-event price map used by the
walk-in computation (`TICKET_PRICES[key]['event']`). -/
structure EventPrices where
  event : List (Str × ℚ)

/-- One line of the `Price categories` cell as read by
`calculate_walkin_price`: `fields = ticket.split()`, name is
`fields[0][:-1]`, quantity is `int(fields[1])`.  `none` models the
`IndexError`/`ValueError` on lines without two fields or without a numeric
quantity. -/
def walkinTicketLine (line : Str) : Option (Str × Int) :=
  match words line with
  | [] => none
  | f0 :: rest =>
    match rest with
    | [] => none
    | f1 :: _ => (parseInt f1).map (fun q => (f0.dropLast, q))

/-- The accompanying-adult/senior contribution inside
`calculate_walkin_price`: `int(booking.get(extra, 0)) * prices.get(ticket, 0.0)`,
with `except ValueError: pass` contributing nothing. -/
def accContribution (field : Option Str) (price : ℚ) : ℚ :=
  match field with
  | none => 0
  | some s =>
    match parseInt s with
    | some n => (n : ℚ) * price
    | none => 0

/-- The `try` block of `calculate_walkin_price`: recompute the price of a
zero-priced (walk-in) booking from the `TICKET_PRICES` entry for this
booking's formatted date and product title.  `none` models any exception
inside the block (caught by the `except` clause). -/
def walkinTry (tbl : List (Str × EventPrices)) (b : Booking) : Option ℚ := do
  let dt ← date_sort_item b.startDate
  let dateS := fmtDDMMYY dt
  let prices := ((alGet (dateS ++ ' ' :: b.productTitle) tbl).map
    EventPrices.event).getD []
  let tickets ← mapMo walkinTicketLine (splitlines b.priceCategories)
  let base : ℚ := (tickets.map (fun t => alGetD t.1 0 prices * (t.2 : ℚ))).sum
  let infants := countSub 't' ['o'] (b.childAgeNonInternet.getD [])
  let monthPart ← (splitOnChar '/' dateS).get? 1
  let infantPrice : ℚ := if monthPart = "11".data then 6 else 7
  let acc := accContribution b.accompanyingAdult (alGetD "Adult".data 0 prices) +
    accContribution b.accompanyingSenior (alGetD "Senior".data 0 prices)
  pure (base - infantPrice * (infants : ℚ) + acc)

/-- `parse_ticket_sheet.calculate_walkin_price`.  The mutation
`booking['walkin'] = 'true'` and the diagnostic print are not modelled; the
returned display string is.  `none` models the uncaught `ValueError` of
`float(...)` on an unparseable price field. -/
def calculate_walkin_price (tbl : List (Str × EventPrices)) (value : Str)
    (b : Booking) : Option Str :=
  match parseFloat (tidy_price value) with
  | none => none
  | some v =>
    if v = 0 then
      match walkinTry tbl b with
      | some w => some (formatQ2 w)
      | none => some (formatQ2 v)
    else some (formatQ2 v)

end parse_ticket_sheet

namespace event_breakdown

open parse_ticket_sheet (Booking)

/-- `event_breakdown.parse_date`: same cleanup, but
`strptime '%A %B %d %Y %H:%M %p'` — note `%H`, not `%I`. -/
def parse_date (s : Str) : Option DateTime :=
  strptime24 (cleanDate s)

/-- A ticket record `(ticket name, quantity, unit price)` produced by
`event_breakdown.parse_tickets`. -/
abbrev TicketRec := Str × Int × ℚ

/-- The infant count computed inside the `Child` branch of `parse_tickets`:
the `Child Age (Nov)`/`Child Age (Dec)` cells are split on `'\n'`
(`str.split`, so an empty cell yields one empty entry) and entries containing
`"0 to 1 yr"` or `"1 to 2 yr"` are counted.  `none` models the `KeyError`
when either column is absent. -/
def infantCount (b : Booking) : Option Nat := do
  let nov ← b.childAgeNov
  let dec ← b.childAgeDec
  let presents := splitOnChar '\n' nov ++ splitOnChar '\n' dec
  pure (presents.filter (fun p =>
    containsSub "0 to 1 yr".data p || containsSub "1 to 2 yr".data p)).length

/-- One line of the ticket list in `parse_tickets`:
`name, rest = ticket.split(':', maxsplit=1)`, quantity `int(fields[0])`,
price `float(fields[1][2:-1])`; a line named exactly `Child` is split into a
`Child` and an `Infant` record, both priced `0.0`, moving one ticket per
infant-aged attendee.  `none` models the exceptions raised on malformed
lines. -/
def parseTicketLine (b : Booking) (line : Str) : Option (List TicketRec) := do
  let nf ← splitFirst ':' line
  match words nf.2 with
  | [] => none
  | qtyTok :: rest =>
    let qty ← parseInt qtyTok
    match rest with
    | [] => none
    | priceTok :: _ =>
      let price ← parseFloat ((priceTok.drop 2).dropLast)
      if nf.1 = "Child".data then do
        let ic ← infantCount b
        pure [("Child".data, qty - (ic : Int), 0), ("Infant".data, (ic : Int), 0)]
      else
        pure [(nf.1, qty, price)]

/-- The accompanying-adult/senior fold at the start of `parse_tickets`
(lines 208–216): each field of the form `"<qty>£<value>"`, when present,
non-empty and with a non-`'0'` quantity, appends a synthetic ticket line
`"Adult: <qty> (£<value>)"` (resp. `Senior`).  `none` models the uncaught
`ValueError` when the field does not split into exactly two parts at `'£'`. -/
def accompanyingLine (name : Str) (field : Option Str) : Option (List Str) :=
  match field with
  | none => some []
  | some s =>
    if s = [] then some []
    else
      match splitOnChar '£' s with
      | [q, v] =>
        if q = "0".data then some []
        else some [name ++ ": ".data ++ q ++ " (£".data ++ v ++ [')']]
      | _ => none

/-- `event_breakdown.parse_tickets`. -/
def parse_tickets (ticketStr : Str) (b : Booking) : Option (List TicketRec) := do
  let extraA ← accompanyingLine "Adult".data b.accompanyingAdult
  let extraS ← accompanyingLine "Senior".data b.accompanyingSenior
  let lines := splitlines ticketStr ++ extraA ++ extraS
  let recs ← mapMo (parseTicketLine b) lines
  pure recs.flatten

/-- `event_breakdown.PREORDERED_TYPES`. -/
def PREORDERED_TYPES : List Str :=
  ["Adult".data, "Senior".data, "Child".data, "Family Child".data]

/-- `event_breakdown.order_ticket_types`: sort lexicographically
(`list.sort()`), then move the known types to the front in the fixed
order. -/
def order_ticket_types (ticketTypes : List Str) : List Str :=
  let ts := List.insertionSort (fun a b => a ≤ b) ticketTypes
  (PREORDERED_TYPES.filter (fun t => t ∈ ts)) ++
    ts.filter (fun t => ¬ t ∈ PREORDERED_TYPES)

/-- `event_breakdown.BookingSubTotal`. -/
structure BookingSubTotal where
  full_value_tickets : List (Str × Int)
  reduced_tickets : List (Str × Int)
  total_value : ℚ
  total_saving : ℚ
  total_extra_cost : ℚ
  total_orders : Nat
  ticket_types : List Str

/-- The per-(date, event) breakdown structure consumed by the totals
functions: a dict keyed by date, of dicts keyed by event. -/
abbrev Breakdown := List (Str × List (Str × BookingSubTotal))

end event_breakdown

namespace server

open event_breakdown

/-- `server.generate_day_totals`: the per-day summary for one date group
(the inner loop body of `generate_day_totals`). -/
def dayTotal (dateGroup : List (Str × BookingSubTotal)) :
    Int × Nat × ℚ × List (Str × Int) :=
  let step := dateGroup.foldl
    (fun acc ev =>
      let t := ev.2
      let withFull := t.full_value_tickets.foldl
        (fun m kv => alAdd kv.1 kv.2 m) acc.2.2.2
      let withBoth := t.reduced_tickets.foldl
        (fun m kv => alAdd kv.1 kv.2 m) withFull
      ((acc.1 + (t.full_value_tickets.map Prod.snd).sum +
          (t.reduced_tickets.map Prod.snd).sum : Int),
        acc.2.1 + t.total_orders,
        acc.2.2.1 + t.total_value,
        withBoth))
    ((0 : Int), (0 : Nat), (0 : ℚ), ([] : List (Str × Int)))
  let ticketTypes := order_ticket_types (step.2.2.2.map Prod.fst)
  (step.1, step.2.1, step.2.2.1,
    ticketTypes.map (fun t => (t, alGetD t 0 step.2.2.2)))

/-- `server.generate_day_totals`: for each date, the number of tickets,
number of orders, total cost, and the ticket-type totals reinserted in
display order.  `Family Child` is kept as its own bucket here. -/
def generate_day_totals (breakdown : Breakdown) :
    List (Str × (Int × Nat × ℚ × List (Str × Int))) :=
  breakdown.map (fun dg => (dg.1, dayTotal dg.2))

/-- The result record of `server.grand_total_orders`. -/
structure GrandTotal where
  total_value : ℚ
  total_orders : Nat
  total_tickets : Int
  total_types : List (Str × Int)

/-- `server.grand_total_orders`: sum every event's full-value and reduced
ticket maps, then fold the `Family Child` bucket into `Child` and delete it.
The `defaultdict` reads are modelled exactly: reading the missing
`'Family Child'` key inserts it with value 0, and `+=` on a missing
`'Child'` key appends it. -/
def grand_total_orders (breakdown : Breakdown) : GrandTotal :=
  let step := breakdown.foldl
    (fun acc dg =>
      dg.2.foldl
        (fun acc2 ev =>
          let t := ev.2
          let withFull := t.full_value_tickets.foldl
            (fun m kv => alAdd kv.1 kv.2 m) acc2.2.2.2
          let withBoth := t.reduced_tickets.foldl
            (fun m kv => alAdd kv.1 kv.2 m) withFull
          (acc2.1 + t.total_value,
            acc2.2.1 + t.total_orders,
            (acc2.2.2.1 + (t.full_value_tickets.map Prod.snd).sum +
              (t.reduced_tickets.map Prod.snd).sum : Int),
            withBoth))
        acc)
    ((0 : ℚ), (0 : Nat), (0 : Int), ([] : List (Str × Int)))
  let touched := alTouch "Family Child".data step.2.2.2
  let fc := alGetD "Family Child".data 0 touched
  let merged := alAdd "Child".data fc touched
  ⟨step.1, step.2.1, step.2.2.1, alErase "Family Child".data merged⟩

end server

namespace internal

/-- `ticket_sheets/utils/internal.categorise_presents` on the formatted
present list of one row: presents in the fixed infant list are infants, all
others (all presents not equal to a member of the infant sublist) are
children. -/
def categorise_presents (presents : List Str) : Nat × Nat :=
  let infant := presents.filter (fun p =>
    p = "BU1".data ∨ p = "B1".data ∨ p = "GU1".data ∨ p = "G1".data)
  let child := presents.filter (fun p => ¬ p ∈ infant)
  (child.length, infant.length)

/-- The replacement line written by `update_tickets`:
`f"{ticket_name}: {new_val}"`. -/
def updLine (name : Str) (v : Int) : Str := name ++ ':' :: ' ' :: intChars v

/-- `ticket_sheets/utils/internal.update_tickets`: replace the first line
starting with `"<name>:"` by `"<name>: <new_val>"`, or append that line if no
line matches (the `for ... else` clause). -/
def update_tickets (lines : List Str) (name : Str) (newVal : Int) : List Str :=
  match lines with
  | [] => [updLine name newVal]
  | l :: rest =>
    if hasPre (name ++ [':']) l then updLine name newVal :: rest
    else l :: update_tickets rest name newVal

end internal

namespace extractions

open internal
open parse_ticket_sheet (Booking)

/-- The per-row body of `ticket_sheets/utils/extractions.extract_tickets`
(`extract_ticket`): split the cell on newlines; each line is split at every
colon and must give exactly two parts (the tuple unpacking of
`field.split(":")`), the quantity is `int` of the first whitespace token of
the second part; quantities accumulate per `"ticket_<name>"` key.  `none`
models the uncaught `ValueError`/`IndexError` on a malformed line, which
aborts the whole `DataFrame.apply`. -/
def extract_ticket_line (l : Str) : Option (Str × Int) :=
  match splitOnChar ':' l with
  | [name, qtyData] =>
    (match words qtyData with
     | [] => none
     | q :: _ => (parseInt q).map (fun n => ("ticket_".data ++ name, n)))
  | _ => none

def extract_ticket (cell : Str) : Option (List (Str × Int)) := do
  let pairs ← mapMo extract_ticket_line (splitlines cell)
  pure (pairs.foldl (fun acc p => alAdd p.1 p.2 acc) [])

/-- One application of the updates in
`ticket_sheets/utils/extractions.split_infant_presents`' row function, on the
line list: set the `Child` line to the child count and, when non-zero, the
`Infant` line to the infant count. -/
def split_infant_lines (presents : List Str) (lines : List Str) : List Str :=
  if (categorise_presents presents).2 ≠ 0 then
    update_tickets
      (update_tickets lines "Child".data ((categorise_presents presents).1 : Int))
      "Infant".data ((categorise_presents presents).2 : Int)
  else update_tickets lines "Child".data ((categorise_presents presents).1 : Int)

/-- The row function of
`ticket_sheets/utils/extractions.split_infant_presents`
(`split_infant_present`): split the price-categories cell into lines, update
the `Child`/`Infant` lines from the present counts, and re-join with
newlines. -/
def split_infant_present (presents : List Str) (cats : Str) : Str :=
  joinLines (split_infant_lines presents (splitlines cats))

/-- The row function of
`ticket_sheets/utils/extractions.include_accompanying` (`add_accompanying`):
when the formatted accompanying-adult / senior count is present (column
exists) and non-zero, fold it into the ticket lines via `update_tickets`,
then re-join.  `none` for a count models an absent column. -/
def add_accompanying (adultF seniorF : Option Int) (cats : Str) : Str :=
  let l0 := splitlines cats
  let l1 := match adultF with
    | some n => if n ≠ 0 then update_tickets l0 "Adult".data n else l0
    | none => l0
  let l2 := match seniorF with
    | some n => if n ≠ 0 then update_tickets l1 "Senior".data n else l1
    | none => l1
  joinLines l2

end extractions

namespace parse_data

/-- A row of the parsed dataframe, restricted to the fields the filter
functions read.  `parse_csv` pre-parses `Start date` into
`Start date_formatted`, so the parsed date is always present. -/
structure PRow where
  startDateF : DateTime
  productTitle : Str
deriving DecidableEq

/-- `ticket_sheets/parse_data.filter_old_orders`: when hiding old orders,
keep the rows whose parsed start date is `>=`
`datetime.fromisoformat(old_order_date)`.  `none` models the `ValueError` on
an unparseable cutoff string. -/
def filter_old_orders (hideOld : Bool) (oldOrderDate : Str)
    (data : List PRow) : Option (List PRow) :=
  if ¬ hideOld then some data
  else (fromisoformat oldOrderDate).map (fun cutoff =>
    data.filter (fun r => cutoff.rank ≤ r.startDateF.rank))

/-- `ticket_sheets/parse_data.filter_product`: keep the rows whose product
title contains the filter string, case-insensitively
(`str.contains(product_filter, case=False, regex=False)`); an empty filter
keeps everything. -/
def filter_product (productFilter : Str) (data : List PRow) : List PRow :=
  if productFilter = [] then data
  else data.filter (fun r =>
    containsSub (lowerStr productFilter) (lowerStr r.productTitle))

end parse_data

namespace parse_ticket_sheet

/-- The date filter of `server.parse_bookings` combined with
`filter_booking`: a booking is kept iff (when hiding old orders) its parsed
start date is not `<` the cutoff, and its product title passes
`filter_booking`.  `none` models the `ValueError` of `date_sort_item` on an
unparseable date. -/
def parse_bookings_keep (hideOld : Bool) (cutoff : DateTime)
    (filterString : Str) (b : Booking) : Option Bool :=
  if hideOld then
    (date_sort_item b.startDate).map (fun d =>
      decide (cutoff.rank ≤ d.rank) && filter_booking filterString b)
  else some (filter_booking filterString b)

/-- Sort directions appearing in `column_sorts` ('ASC', 'DESC', 'DATE'). -/
inductive SortDir | asc | desc | date
deriving DecidableEq

/-- The lowercased string key used for 'ASC'/'DESC' sorts:
`x[sort_index].lower()`. -/
def strKey (i : Nat) (row : List Str) : Str := lowerStr (row.getD i [])

/-- One pass of `parse_ticket_sheet.sort_bookings` for one configured column:
`bookings.sort(key=...)` is a stable ascending sort by the key (CPython list
sort is stable, and a stable ascending sort by a given key is unique, so it
is embedded as an insertion sort).  `none` models the exceptions raised while
computing keys: an out-of-range row index, or `date_sort_item` failing on a
'DATE' column. -/
def applySort (i : Nat) (dir : SortDir) (rows : List (List Str)) :
    Option (List (List Str)) :=
  match dir with
  | .date =>
    if rows.all (fun r => i < r.length ∧ (date_sort_item (r.getD i [])).isSome) then
      some (List.insertionSort (fun a b =>
        ((date_sort_item (a.getD i [])).map DateTime.rank).getD 0 ≤
          ((date_sort_item (b.getD i [])).map DateTime.rank).getD 0) rows)
    else none
  | .asc =>
    if rows.all (fun r => i < r.length) then
      some (List.insertionSort (fun a b => strKey i a ≤ strKey i b) rows)
    else none
  | .desc =>
    if rows.all (fun r => i < r.length) then
      some (List.insertionSort (fun a b => strKey i b ≤ strKey i a) rows)
    else none

/-- `parse_ticket_sheet.sort_bookings`: apply each configured column sort in
order; a column absent from the header is skipped
(`except ValueError: continue`). -/
def sort_bookings (columnSorts : List (Str × SortDir)) (labels : List Str)
    (rows : List (List Str)) : Option (List (List Str)) :=
  columnSorts.foldlM
    (fun bs cs =>
      match labels.indexOf? cs.1 with
      | none => some bs
      | some i => applySort i cs.2 bs)
    rows

end parse_ticket_sheet

namespace tally

/-- One cell of the rendered tally grid
(`ticket_sheets/tally.render_tally_data`). -/
structure TCell where
  present : Str
  end_family : Bool
  train_limit : Bool
  order_id : Str
  needs_codes : Str
deriving DecidableEq

/-- The empty-slot cell (`default_cell_value`). -/
def defaultTCell : TCell := ⟨[], false, false, [], []⟩

/-- One row of the dataframe passed to `render_tally_data` (as produced by
`generate_tally_data`): the train time, the list of formatted presents, the
order id and the needs code.  `generate_tally_data` filters out rows with no
presents (`present_count > 0`), which this model relies on: a row with an
empty present list is assumed absent. -/
structure TRow where
  train_time : Str
  presents : List Str
  order_id : Str
  needs_codes : Str

/-- Set the `end_family` flag of the last cell of an order's presents
(`format_presents`: `formatted[-1]["end_family"] = True`). -/
def markLastEndFamily : List TCell → List TCell
  | [] => []
  | [c] => [⟨c.present, true, c.train_limit, c.order_id, c.needs_codes⟩]
  | c :: c2 :: rest => c :: markLastEndFamily (c2 :: rest)

/-- `format_presents`: one cell per present of the row, `end_family` on the
last one, `train_limit` initially false. -/
def formatPresents (r : TRow) : List TCell :=
  markLastEndFamily (r.presents.map (fun p =>
    ⟨p, false, false, r.order_id, r.needs_codes⟩))

/-- The cells of one train's column before padding: the rows of that train
time in dataframe order, exploded (`explode` + `groupby.cumcount` gives each
cell the 1-based position it has in this list). -/
def colCells (data : List TRow) (t : Str) : List TCell :=
  ((data.filter (fun r => r.train_time = t)).map formatPresents).flatten

/-- The number of grid rows: `max(max(train_limits.values()) + 1, 26)`
(`train_limits` is non-empty in every configuration that reaches this
code). -/
def numRowsFor (limits : List (Str × Nat)) : Nat :=
  max ((limits.map Prod.snd).foldl max 0 + 1) 26

/-- `ticket_sheets/tally.render_tally_data`: pivot the per-train cell lists
into a grid with rows indexed `1..num_rows` (index `r0` below is row
`r0 + 1`) and one column per configured train (in `train_limits` order),
filling missing cells with the default, then set `train_limit` on the cell
at the row equal to the train's limit (`tally_table_df.loc[limit, train]`). -/
def render_tally_data (data : List TRow) (limits : List (Str × Nat)) :
    List (List TCell) :=
  (List.range (numRowsFor limits)).map (fun r0 =>
    limits.map (fun tl =>
      let base := (colCells data tl.1).getD r0 defaultTCell
      ⟨base.present, base.end_family,
        base.train_limit || decide (r0 + 1 = tl.2), base.order_id,
        base.needs_codes⟩))

/-- Cell accessor for the rendered grid (row index `r0` from the top,
column index `j`). -/
def gridCell (g : List (List TCell)) (r0 j : Nat) : TCell :=
  (g.getD r0 []).getD j defaultTCell

end tally

namespace server

/-- `server.train_times` (module-level configuration). -/
def train_times : List Str :=
  ["10:30".data, "11:00".data, "11:30".data, "12:00".data, "12:30".data,
   "13:30".data, "14:00".data, "14:30".data, "15:00".data, "15:30".data,
   "16:00".data]

/-- `server.train_spaces` (module-level configuration). -/
def train_spaces : List (Str × Nat) :=
  [("10:30".data, 15), ("11:00".data, 20), ("11:30".data, 20),
   ("12:00".data, 20), ("12:30".data, 15), ("13:30".data, 20),
   ("14:00".data, 20), ("14:30".data, 20), ("15:00".data, 20),
   ("15:30".data, 20), ("16:00".data, 10)]

/-- One cell of the legacy tally grid (`server.render_tally_data`). -/
structure SCell where
  present : Str
  end_family : Bool
  train_limit : Bool
  order_id : Str
deriving DecidableEq

def emptySCell : SCell := ⟨[], false, false, []⟩

/-- One entry of a train's order list in the tally data:
`(order_id, presents, len(presents))` — the length is redundant and not
modelled. -/
structure SOrder where
  order_id : Str
  presents : List Str

/-- `data[row][column] = v`; `none` models the `IndexError` when the row or
column is out of range of the fixed 26-row grid. -/
def setGrid (g : List (List SCell)) (r c : Nat) (v : SCell) :
    Option (List (List SCell)) :=
  match g.get? r with
  | none => none
  | some row => if c < row.length then some (g.set r (row.set c v)) else none

/-- In-place mutation of one cell through a function; `none` on an
out-of-range index. -/
def modifyGrid (g : List (List SCell)) (r c : Nat) (f : SCell → SCell) :
    Option (List (List SCell)) :=
  match g.get? r with
  | none => none
  | some row =>
    match row.get? c with
    | none => none
    | some cell => some (g.set r (row.set c (f cell)))

def markEndFamily (c : SCell) : SCell := ⟨c.present, true, c.train_limit, c.order_id⟩

def markTrainLimit (c : SCell) : SCell := ⟨c.present, c.end_family, true, c.order_id⟩

/-- The loop state of `server.render_tally_data`: the grid, the per-train
row counter, and the values of the Python loop variables `row`/`column`
after the most recent present (they leak out of the inner loop; `none` means
they were never assigned, so reading them raises `NameError`). -/
structure SState where
  grid : List (List SCell)
  ctr : List (Str × Nat)
  last : Option (Nat × Nat)

/-- The inner loop body (`for present in presents`): look up the train's row
counter and column, write the cell, and advance the counter. -/
def stepPresent (train order_id : Str) (st : SState) (p : Str) :
    Option SState := do
  let row ← alGet train st.ctr
  let column ← train_times.indexOf? train
  let g ← setGrid st.grid row column ⟨p, false, false, order_id⟩
  pure ⟨g, alSet train (row + 1) st.ctr, some (row, column)⟩

/-- The order loop body: place every present, then set `end_family` on
`data[row][column]` using the leaked loop variables. -/
def stepOrder (train : Str) (st : SState) (o : SOrder) : Option SState := do
  let st2 ← o.presents.foldlM (stepPresent train o.order_id) st
  match st2.last with
  | none => none
  | some rc => do
    let g ← modifyGrid st2.grid rc.1 rc.2 markEndFamily
    pure ⟨g, st2.ctr, st2.last⟩

/-- The final marker loop: for every configured train,
`data[spaces - 1][column]['train_limit'] = True`. -/
def markerLoop (pairs : List (Str × Nat)) (g : List (List SCell)) :
    Option (List (List SCell)) :=
  pairs.foldlM
    (fun g2 tl => do
      let column ← train_times.indexOf? tl.1
      modifyGrid g2 (tl.2 - 1) column markTrainLimit)
    g

/-- `server.render_tally_data`: a fixed 26-row grid with one column per
configured train time, filled train by train from the tally data
(`tally_data` is a dict mapping train time to its order list), then
annotated with the capacity markers. -/
def render_tally_data (tallyData : List (Str × List SOrder)) :
    Option (List (List SCell)) := do
  let init : SState :=
    ⟨(List.range 26).map (fun _ => train_times.map (fun _ => emptySCell)),
      train_times.map (fun t => (t, 0)), none⟩
  let fin ← tallyData.foldlM
    (fun st pair => pair.2.foldlM (stepOrder pair.1) st) init
  markerLoop train_spaces fin.grid

/-- Cell accessor for the legacy grid. -/
def gridCellS (g : List (List SCell)) (r c : Nat) : SCell :=
  (g.getD r []).getD c emptySCell

end server

namespace conversions

/-- `ticket_sheets/conversions.parse_date` (also
`ticket_sheets/utils/conversions.parse_date`): strip ordinal suffixes and
commas, then `strptime '%A %B %d %Y %I:%M %p'`. -/
def parse_date (s : Str) : Option DateTime :=
  strptime12 (cleanDate s)

end conversions

/-- The four ordinal suffixes. -/
def ordSuffixes : List Str := ["st".data, "nd".data, "rd".data, "th".data]

/-- A date string of the documented export shape
`"<full weekday> <full month> <day><ordinal suffix>[,] <year> <hour>:<minute> <AM|PM>"`
built from its numeric components (weekday index `wd`, month index `mo`
starting at 0, ordinal-suffix index `sfx`, optional comma after the day,
minutes zero-padded to two digits as in the export).  This is the input
family the date-format claim quantifies over. -/
def mkDateStr (wd mo d sfx y h mi : Nat) (comma pm : Bool) : Str :=
  weekdayNames.getD wd [] ++ ' ' :: monthNames.getD mo [] ++ ' ' ::
    natChars d ++ ordSuffixes.getD sfx [] ++ (if comma then [','] else []) ++
    ' ' :: natChars y ++ ' ' :: natChars h ++ ':' :: pad2 mi ++ ' ' ::
    (if pm then "PM".data else "AM".data)

/-! ### Concrete test data for the claims' scenarios -/

/-- The grand-total scenario of the spec: one date with two events whose
ticket maps are `{Adult: 2, Family Child: 1}` and `{Adult: 1, Child: 2}`
(all full value). -/
def c6Breakdown : event_breakdown.Breakdown :=
  [("30/11/24".data,
    [("Event A".data,
      ⟨[("Adult".data, 2), ("Family Child".data, 1)], [], 18, 0, 0, 1, []⟩),
     ("Event B".data,
      ⟨[("Adult".data, 1), ("Child".data, 2)], [], 23, 0, 0, 1, []⟩)])]

/-! ## Lemmas

Everything from here on is a theorem; the shallow embedding above is
complete.  First a layer of lemmas about the string primitives, then the
theorems that settle the claims. -/

theorem length_dropWhile_le (p : Char → Bool) (l : Str) :
    (l.dropWhile p).length ≤ l.length := by
  induction l with
  | nil => simp [List.dropWhile]
  | cons x xs ih =>
    simp only [List.dropWhile]
    split
    · exact Nat.le_succ_of_le ih
    · simp

theorem natCharsAux_congr : ∀ (f1 f2 n : Nat), n < f1 → n < f2 →
    natCharsAux f1 n = natCharsAux f2 n := by
  intro f1
  induction f1 with
  | zero => intro f2 n h1; omega
  | succ g ih =>
    intro f2 n h1 h2
    cases f2 with
    | zero => omega
    | succ h =>
      simp only [natCharsAux]
      by_cases hn : n < 10
      · simp [hn]
      · rw [if_neg hn, if_neg hn, ih h (n / 10) (by omega) (by omega)]

theorem natChars_lt10 {n : Nat} (h : n < 10) : natChars n = [digitChar n] := by
  simp [natChars, natCharsAux, h]

theorem natChars_ge10 {n : Nat} (h : ¬ n < 10) :
    natChars n = natChars (n / 10) ++ [digitChar (n % 10)] := by
  have h1 : natCharsAux (n + 1) n = natCharsAux n (n / 10) ++ [digitChar (n % 10)] := by
    simp [natCharsAux, h]
  show natCharsAux (n + 1) n = natCharsAux (n / 10 + 1) (n / 10) ++ _
  rw [h1, natCharsAux_congr n (n / 10 + 1) (n / 10) (by omega) (by omega)]

theorem digitChar_isDigit {d : Nat} (h : d < 10) : (digitChar d).isDigit = true := by
  interval_cases d <;> decide

theorem digitVal_digitChar {d : Nat} (h : d < 10) : digitVal (digitChar d) = d := by
  interval_cases d <;> decide

theorem natChars_ne_nil (n : Nat) : natChars n ≠ [] := by
  by_cases h : n < 10
  · rw [natChars_lt10 h]; simp
  · rw [natChars_ge10 h]; simp

theorem natChars_digits (n : Nat) : ∀ c ∈ natChars n, c.isDigit = true := by
  induction n using Nat.strong_induction_on with
  | _ n ih =>
    by_cases h : n < 10
    · rw [natChars_lt10 h]
      intro c hc
      simp only [List.mem_singleton] at hc
      exact hc ▸ digitChar_isDigit h
    · rw [natChars_ge10 h]
      intro c hc
      rcases List.mem_append.mp hc with h1 | h1
      · exact ih (n / 10) (Nat.div_lt_self (by omega) (by omega)) c h1
      · simp only [List.mem_singleton] at h1
        exact h1 ▸ digitChar_isDigit (Nat.mod_lt _ (by omega))

theorem digitsVal_append_singleton (a : Str) (c : Char) :
    digitsVal (a ++ [c]) = 10 * digitsVal a + digitVal c := by
  simp [digitsVal, List.foldl_append]

theorem digitsVal_natChars (n : Nat) : digitsVal (natChars n) = n := by
  induction n using Nat.strong_induction_on with
  | _ n ih =>
    by_cases h : n < 10
    · rw [natChars_lt10 h]
      simp [digitsVal, digitVal_digitChar h]
    · rw [natChars_ge10 h, digitsVal_append_singleton,
        ih (n / 10) (Nat.div_lt_self (by omega) (by omega)),
        digitVal_digitChar (Nat.mod_lt _ (by omega))]
      omega

theorem natChars_length_le_two {n : Nat} (h : n ≤ 99) :
    (natChars n).length ≤ 2 := by
  by_cases h1 : n < 10
  · rw [natChars_lt10 h1]; simp
  · rw [natChars_ge10 h1, natChars_lt10 (show n / 10 < 10 by omega)]
    simp

theorem natChars_length_four {n : Nat} (h1 : 1000 ≤ n) (h2 : n ≤ 9999) :
    (natChars n).length = 4 := by
  rw [natChars_ge10 (by omega), natChars_ge10 (show ¬ n / 10 < 10 by omega),
    natChars_ge10 (show ¬ n / 10 / 10 < 10 by omega),
    natChars_lt10 (show n / 10 / 10 / 10 < 10 by omega)]
  simp

theorem pad2_digits (n : Nat) : ∀ c ∈ pad2 n, c.isDigit = true := by
  unfold pad2
  split
  · intro c hc
    rcases List.mem_cons.mp hc with h1 | h1
    · subst h1; decide
    · exact natChars_digits n c h1
  · exact natChars_digits n

theorem pad2_length_two {n : Nat} (h : n ≤ 99) : (pad2 n).length = 2 := by
  unfold pad2
  split
  · rename_i h1
    rw [natChars_lt10 h1]; simp
  · rename_i h1
    rw [natChars_ge10 h1, natChars_lt10 (show n / 10 < 10 by omega)]
    simp

theorem pad2_ne_nil (n : Nat) : pad2 n ≠ [] := by
  unfold pad2
  split
  · simp
  · exact natChars_ne_nil n

theorem digitsVal_pad2 {n : Nat} (h : n ≤ 99) : digitsVal (pad2 n) = n := by
  unfold pad2
  split
  · rename_i h1
    rw [natChars_lt10 h1]
    show digitsVal ('0' :: [digitChar n]) = n
    have h0 : digitVal '0' = 0 := by decide
    simp [digitsVal, List.foldl, h0, digitVal_digitChar h1]
  · exact digitsVal_natChars n

theorem isDigit_ne {c : Char} (d : Char) (hc : c.isDigit = true)
    (hd : d.isDigit = false) : c ≠ d := by
  intro h
  rw [h, hd] at hc
  exact absurd hc (by simp)

theorem allDigits_natChars (n : Nat) : allDigits (natChars n) = true := by
  simp only [allDigits, List.all_eq_true]
  exact natChars_digits n

theorem allDigits_pad2 (n : Nat) : allDigits (pad2 n) = true := by
  simp only [allDigits, List.all_eq_true]
  exact pad2_digits n

/-! ### Prefix and substring lemmas -/

theorem hasPre_nil (l : Str) : hasPre [] l = true := by
  cases l <;> rfl

theorem hasPre_self_append (p rest : Str) : hasPre p (p ++ rest) = true := by
  induction p with
  | nil => exact hasPre_nil rest
  | cons c cs ih => simp [hasPre, ih]

theorem hasPre_iff (p l : Str) : hasPre p l = true ↔ p <+: l := by
  induction p generalizing l with
  | nil => simp [hasPre_nil]
  | cons c cs ih =>
    cases l with
    | nil =>
      constructor
      · intro h
        exact absurd h (by simp [hasPre])
      · intro h
        have := h.length_le
        simp at this
    | cons d ds =>
      simp only [hasPre, Bool.and_eq_true, decide_eq_true_eq, ih,
        List.cons_prefix_cons]

theorem containsSub_iff (p l : Str) : containsSub p l = true ↔ p <:+: l := by
  induction l with
  | nil =>
    simp only [containsSub, decide_eq_true_eq]
    constructor
    · intro h; exact h ▸ List.infix_refl []
    · intro h
      have hlen := List.IsInfix.length_le h
      simp only [List.length_nil, Nat.le_zero, List.length_eq_zero] at hlen
      exact hlen
  | cons c cs ih =>
    simp only [containsSub, Bool.or_eq_true, hasPre_iff, ih]
    constructor
    · rintro (h | h)
      · exact h.isInfix
      · exact h.trans (List.infix_cons (List.infix_refl cs))
    · intro h
      rcases h with ⟨s, t, hst⟩
      cases s with
      | nil =>
        left
        simpa using ⟨t, hst⟩
      | cons x xs =>
        right
        have hst2 : x :: (xs ++ p ++ t) = c :: cs := by simpa using hst
        exact ⟨xs, t, (List.cons.injEq _ _ _ _).mp hst2 |>.2⟩

/-! ### Splitting lemmas -/

theorem takeWhile_append_stop {p : Char → Bool} {a : Str} {y : Char}
    (ha : ∀ x ∈ a, p x = true) (hy : p y = false) (b : Str) :
    (a ++ y :: b).takeWhile p = a := by
  induction a with
  | nil => simp [List.takeWhile, hy]
  | cons x xs ih =>
    have hx := ha x (by simp)
    simp only [List.cons_append, List.takeWhile_cons, hx]
    simp [ih (fun z hz => ha z (by simp [hz]))]

theorem dropWhile_append_stop {p : Char → Bool} {a : Str} {y : Char}
    (ha : ∀ x ∈ a, p x = true) (hy : p y = false) (b : Str) :
    (a ++ y :: b).dropWhile p = y :: b := by
  induction a with
  | nil => simp [List.dropWhile, hy]
  | cons x xs ih =>
    have hx := ha x (by simp)
    simp only [List.cons_append, List.dropWhile_cons, hx]
    simp [ih (fun z hz => ha z (by simp [hz]))]

theorem takeWhile_all {p : Char → Bool} {a : Str}
    (ha : ∀ x ∈ a, p x = true) : a.takeWhile p = a := by
  induction a with
  | nil => rfl
  | cons x xs ih =>
    simp only [List.takeWhile_cons, ha x (by simp)]
    simp [ih (fun z hz => ha z (by simp [hz]))]

theorem dropWhile_all {p : Char → Bool} {a : Str}
    (ha : ∀ x ∈ a, p x = true) : a.dropWhile p = [] := by
  induction a with
  | nil => rfl
  | cons x xs ih =>
    simp only [List.dropWhile_cons, ha x (by simp)]
    simp [ih (fun z hz => ha z (by simp [hz]))]

theorem splitOnChar_ne_nil (sep : Char) (l : Str) : splitOnChar sep l ≠ [] := by
  induction l with
  | nil => simp [splitOnChar]
  | cons c cs ih =>
    simp only [splitOnChar]
    split
    · simp
    · cases h : splitOnChar sep cs with
      | nil => simp
      | cons p ps => simp

theorem splitOnChar_not_mem {sep : Char} {l : Str} (h : sep ∉ l) :
    splitOnChar sep l = [l] := by
  induction l with
  | nil => rfl
  | cons c cs ih =>
    have hc : c ≠ sep := fun he => h (by simp [he])
    simp only [splitOnChar, if_neg (fun he => hc he)]
    rw [ih (fun hm => h (by simp [hm]))]

theorem splitOnChar_append {sep : Char} {a : Str} (h : sep ∉ a) (b : Str) :
    splitOnChar sep (a ++ sep :: b) = a :: splitOnChar sep b := by
  induction a with
  | nil => simp [splitOnChar]
  | cons c cs ih =>
    have hc : c ≠ sep := fun he => h (by simp [he])
    have ih2 := ih (fun hm => h (by simp [hm]))
    simp only [List.cons_append, splitOnChar, if_neg (fun he => hc he),
      List.append_eq]
    rw [ih2]

/-! ### `words` lemmas -/

theorem wordsAux_congr : ∀ (f1 f2 : Nat) (l : Str), l.length ≤ f1 →
    l.length ≤ f2 → wordsAux f1 l = wordsAux f2 l := by
  intro f1
  induction f1 with
  | zero =>
    intro f2 l h1 h2
    have : l = [] := List.length_eq_zero.mp (by omega)
    subst this
    cases f2 <;> rfl
  | succ g ih =>
    intro f2 l h1 h2
    cases l with
    | nil => cases f2 <;> rfl
    | cons c rest =>
      cases f2 with
      | zero => simp at h2
      | succ h =>
        simp only [List.length_cons] at h1 h2
        simp only [wordsAux]
        by_cases hc : c = ' '
        · simp only [if_pos hc]
          exact ih h rest (by omega) (by omega)
        · simp only [if_neg hc]
          have hd := length_dropWhile_le (fun d => decide (d ≠ ' ')) rest
          rw [ih h (rest.dropWhile (fun d => decide (d ≠ ' '))) (by omega) (by omega)]

theorem words_nil : words [] = [] := rfl

theorem words_cons_space (rest : Str) : words (' ' :: rest) = words rest := by
  show wordsAux (rest.length + 1) (' ' :: rest) = _
  simp only [wordsAux, if_pos rfl]
  rfl

theorem words_token {tok : Str} (hne : tok ≠ [])
    (hns : ∀ c ∈ tok, c ≠ ' ') (rest : Str) :
    words (tok ++ ' ' :: rest) = tok :: words rest := by
  cases tok with
  | nil => exact absurd rfl hne
  | cons c cs =>
    have hc : c ≠ ' ' := hns c (by simp)
    show wordsAux (c :: (cs ++ ' ' :: rest)).length (c :: (cs ++ ' ' :: rest)) = _
    simp only [List.length_cons, wordsAux, if_neg hc]
    rw [takeWhile_append_stop (p := fun d => decide (d ≠ ' '))
        (fun x hx => by simpa using hns x (by simp [hx])) (by simp) rest,
      dropWhile_append_stop (p := fun d => decide (d ≠ ' '))
        (fun x hx => by simpa using hns x (by simp [hx])) (by simp) rest]
    rw [wordsAux_congr (cs ++ ' ' :: rest).length (rest.length + 1) (' ' :: rest)
      (by simp only [List.length_cons, List.length_append]; omega)
      (by simp)]
    show (c :: cs) :: words (' ' :: rest) = _
    rw [words_cons_space]

theorem words_last {tok : Str} (hne : tok ≠ [])
    (hns : ∀ c ∈ tok, c ≠ ' ') : words tok = [tok] := by
  cases tok with
  | nil => exact absurd rfl hne
  | cons c cs =>
    have hc : c ≠ ' ' := hns c (by simp)
    show wordsAux (c :: cs).length (c :: cs) = _
    simp only [List.length_cons, wordsAux, if_neg hc]
    rw [takeWhile_all (p := fun d => decide (d ≠ ' '))
        (fun x hx => by simpa using hns x (by simp [hx])),
      dropWhile_all (p := fun d => decide (d ≠ ' '))
        (fun x hx => by simpa using hns x (by simp [hx]))]
    cases cs <;> rfl

/-! ### `splitlines` / `joinLines` lemmas -/

theorem joinLines_cons (x : Str) (xs : List Str) (h : xs ≠ []) :
    joinLines (x :: xs) = x ++ '\n' :: joinLines xs := by
  cases xs with
  | nil => exact absurd rfl h
  | cons y ys => rfl

theorem splitOnChar_joinLines {L : List Str} (hL : L ≠ [])
    (h : ∀ s ∈ L, '\n' ∉ s) :
    splitOnChar '\n' (joinLines L) = L := by
  induction L with
  | nil => exact absurd rfl hL
  | cons x xs ih =>
    cases xs with
    | nil =>
      show splitOnChar '\n' x = [x]
      exact splitOnChar_not_mem (h x (by simp))
    | cons y ys =>
      rw [joinLines_cons x (y :: ys) (by simp),
        splitOnChar_append (h x (by simp)),
        ih (by simp) (fun s hs => h s (by simp [hs]))]

theorem splitlines_joinLines {L : List Str} (h : ∀ s ∈ L, '\n' ∉ s) :
    splitlines (joinLines L) = dropTrailingEmpty L := by
  cases hL : L with
  | nil => rfl
  | cons x xs =>
    subst hL
    by_cases hj : joinLines (x :: xs) = []
    · -- the join is empty only for the singleton empty line
      cases xs with
      | nil =>
        have hx : x = [] := hj
        subst hx
        rfl
      | cons y ys =>
        rw [joinLines_cons x (y :: ys) (by simp)] at hj
        exact absurd hj (by simp)
    · rw [splitlines, if_neg hj,
        splitOnChar_joinLines (by simp) h]
      rfl

theorem joinLines_append_nil {I : List Str} (h : I ≠ []) :
    joinLines (I ++ [[]]) = joinLines I ++ ['\n'] := by
  induction I with
  | nil => exact absurd rfl h
  | cons x xs ih =>
    cases xs with
    | nil => rfl
    | cons y ys =>
      rw [List.cons_append, joinLines_cons x _ (by simp),
        joinLines_cons x (y :: ys) (by simp), ih (by simp)]
      simp

/-- Rendering the normalised line list differs from rendering the raw one at
most by a trailing newline. -/
theorem joinLines_dropTrailingEmpty (L : List Str) :
    joinLines (dropTrailingEmpty L) = joinLines L ∨
      joinLines L = joinLines (dropTrailingEmpty L) ++ ['\n'] := by
  unfold dropTrailingEmpty
  split
  · rename_i hlast
    have hne : L ≠ [] := by
      intro h
      rw [h] at hlast
      simp at hlast
    have hL : L.dropLast ++ [[]] = L := by
      have h1 := List.dropLast_append_getLast hne
      have h2 : L.getLast hne = [] := by
        have := List.getLast?_eq_getLast L hne
        rw [hlast] at this
        exact (Option.some.injEq _ _).mp this.symm
      rw [h2] at h1
      exact h1
    by_cases hd : L.dropLast = []
    · left
      rw [hd]
      have : L = [[]] := by rw [← hL, hd]; rfl
      rw [this]
      rfl
    · right
      conv_lhs => rw [← hL]
      rw [joinLines_append_nil hd]
  · left; rfl

theorem splitlines_single {l : Str} (hne : l ≠ []) (hnl : '\n' ∉ l) :
    splitlines l = [l] := by
  rw [splitlines, if_neg hne, splitOnChar_not_mem hnl]
  simp [hne]

theorem mapMo_append_some {α β : Type} (f : α → Option β) {xs ys : List α}
    {as bs : List β} (hx : mapMo f xs = some as) (hy : mapMo f ys = some bs) :
    mapMo f (xs ++ ys) = some (as ++ bs) := by
  induction xs generalizing as with
  | nil =>
    simp only [mapMo] at hx
    cases hx
    simpa using hy
  | cons x xt ih =>
    simp only [mapMo] at hx
    cases hfx : f x with
    | none =>
      rw [hfx] at hx
      simp at hx
    | some y =>
      rw [hfx] at hx
      cases hxt : mapMo f xt with
      | none =>
        rw [hxt] at hx
        simp at hx
      | some yt =>
        rw [hxt] at hx
        simp only [Option.some.injEq] at hx
        have has : as = y :: yt := hx.symm
        subst has
        rw [List.cons_append]
        simp only [mapMo]
        rw [hfx, ih hxt]
        simp

/-! ### Association-list lemmas -/

theorem alGet_eq_none_of_not_mem {α : Type} {k : Str} {l : List (Str × α)}
    (h : k ∉ l.map Prod.fst) : alGet k l = none := by
  induction l with
  | nil => rfl
  | cons kv rest ih =>
    have hne : kv.1 ≠ k := by
      intro he
      apply h
      simp only [List.map_cons, List.mem_cons]
      exact Or.inl he.symm
    simp only [alGet, if_neg hne]
    refine ih (fun hm => h ?_)
    simp only [List.map_cons, List.mem_cons]
    exact Or.inr hm

theorem alAdd_keys (k : Str) (v : Int) (l : List (Str × Int)) :
    (alAdd k v l).map Prod.fst =
      if k ∈ l.map Prod.fst then l.map Prod.fst else l.map Prod.fst ++ [k] := by
  induction l with
  | nil => simp [alAdd]
  | cons kv rest ih =>
    by_cases he : kv.1 = k
    · simp [alAdd, he]
    · simp only [alAdd, if_neg he, List.map_cons, ih]
      by_cases hm : k ∈ rest.map Prod.fst
      · simp [hm, Ne.symm he]
      · simp only [hm, if_neg]
        simp [hm, Ne.symm he]

theorem alAdd_nodupKeys {k : Str} {v : Int} {l : List (Str × Int)}
    (h : (l.map Prod.fst).Nodup) : ((alAdd k v l).map Prod.fst).Nodup := by
  rw [alAdd_keys]
  split
  · exact h
  · rename_i hm
    simpa [List.nodup_append, hm] using h

theorem alTouch_keys (k : Str) (l : List (Str × Int)) :
    (alTouch k l).map Prod.fst =
      if k ∈ l.map Prod.fst then l.map Prod.fst else l.map Prod.fst ++ [k] := by
  induction l with
  | nil => simp [alTouch]
  | cons kv rest ih =>
    by_cases he : kv.1 = k
    · simp [alTouch, he]
    · simp only [alTouch, if_neg he, List.map_cons, ih]
      by_cases hm : k ∈ rest.map Prod.fst
      · simp [hm, Ne.symm he]
      · simp only [hm, if_neg]
        simp [hm, Ne.symm he]

theorem alTouch_nodupKeys {k : Str} {l : List (Str × Int)}
    (h : (l.map Prod.fst).Nodup) : ((alTouch k l).map Prod.fst).Nodup := by
  rw [alTouch_keys]
  split
  · exact h
  · rename_i hm
    simpa [List.nodup_append, hm] using h

theorem alGet_alErase {α : Type} {k : Str} {l : List (Str × α)}
    (h : (l.map Prod.fst).Nodup) : alGet k (alErase k l) = none := by
  induction l with
  | nil => rfl
  | cons kv rest ih =>
    simp only [List.map_cons, List.nodup_cons] at h
    by_cases he : kv.1 = k
    · simp only [alErase, if_pos he]
      exact alGet_eq_none_of_not_mem (he ▸ h.1)
    · simp only [alErase, if_neg he, alGet, if_neg he]
      exact ih h.2

theorem foldl_alAdd_nodupKeys (ts : List (Str × Int)) {m : List (Str × Int)}
    (h : (m.map Prod.fst).Nodup) :
    (((ts.foldl (fun m2 kv => alAdd kv.1 kv.2 m2) m)).map Prod.fst).Nodup := by
  induction ts generalizing m with
  | nil => exact h
  | cons kv rest ih => exact ih (alAdd_nodupKeys h)

/-- The ticket-type map accumulated by `grand_total_orders` has no duplicate
keys. -/
theorem grand_fold_nodupKeys (bd : event_breakdown.Breakdown)
    (acc : ℚ × Nat × Int × List (Str × Int))
    (h : (acc.2.2.2.map Prod.fst).Nodup) :
    (((bd.foldl
      (fun acc dg =>
        dg.2.foldl
          (fun acc2 ev =>
            let t := ev.2
            let withFull := t.full_value_tickets.foldl
              (fun m kv => alAdd kv.1 kv.2 m) acc2.2.2.2
            let withBoth := t.reduced_tickets.foldl
              (fun m kv => alAdd kv.1 kv.2 m) withFull
            (acc2.1 + t.total_value,
              acc2.2.1 + t.total_orders,
              (acc2.2.2.1 + (t.full_value_tickets.map Prod.snd).sum +
                (t.reduced_tickets.map Prod.snd).sum : Int),
              withBoth))
          acc)
      acc).2.2.2.map Prod.fst)).Nodup := by
  induction bd generalizing acc with
  | nil => exact h
  | cons dg rest ih =>
    simp only [List.foldl_cons]
    apply ih
    clear ih
    induction dg.2 generalizing acc with
    | nil => exact h
    | cons ev evs ih2 =>
      simp only [List.foldl_cons]
      apply ih2
      exact foldl_alAdd_nodupKeys _ (foldl_alAdd_nodupKeys _ h)

/-! ## Claim theorems -/

/-- C6: the grand-total view merges the `Family Child` bucket into `Child`
and only the grand-total view does so: for any breakdown, the grand total
ticket-type map has no `Family Child` key; on the spec's concrete scenario
(per-event maps `{Adult: 2, Family Child: 1}` and `{Adult: 1, Child: 2}`)
the grand total is `{Adult: 3, Child: 3}` while the per-day map keeps
`Family Child` as its own bucket (`{Adult: 3, Child: 2, Family Child: 1}`,
in display order). -/
theorem c6_grand_total_family_child_merge :
    (∀ bd : event_breakdown.Breakdown,
      alGet "Family Child".data (server.grand_total_orders bd).total_types = none) ∧
    (server.grand_total_orders c6Breakdown).total_types =
      [("Adult".data, 3), ("Child".data, 3)] ∧
    (alGet "30/11/24".data (server.generate_day_totals c6Breakdown)).map
        (fun dt => dt.2.2.2) =
      some [("Adult".data, 3), ("Child".data, 2), ("Family Child".data, 1)] := by
  refine ⟨?_, by decide, by decide⟩
  intro bd
  apply alGet_alErase
  apply alAdd_nodupKeys
  apply alTouch_nodupKeys
  exact grand_fold_nodupKeys bd ((0 : ℚ), (0 : Nat), (0 : Int),
    ([] : List (Str × Int))) (by simp)

/-- C8 counterexample: the claim says a row is kept iff its product title
contains the filter string as a case-insensitive substring, but the legacy
product filter (`parse_ticket_sheet.filter_booking`, used by
`server.parse_bookings`) is case-sensitive: with filter string
`"Day Rover"`, a booking whose product title is `"day rover"` is dropped
even though the title contains the filter string case-insensitively. -/
theorem c8_filter_case_counterexample :
    parse_ticket_sheet.filter_booking "Day Rover".data
      ⟨[], [], "day rover".data, [], [], [], none, none, none, none, none, []⟩
      = false ∧
    lowerStr "Day Rover".data <:+: lowerStr "day rover".data := by
  constructor
  · decide
  · exact (containsSub_iff _ _).mp (by decide)

/-- C8 (amended): filtering keeps exactly the rows that pass both filters.
When hiding old orders, a row is kept iff its parsed start date is greater
than or equal to the cutoff date (inclusive lower bound) — in both the
`parse_data.filter_old_orders` path and the legacy `server.parse_bookings`
path.  When a product filter is set, `parse_data.filter_product` keeps a row
iff its product title contains the filter as a **case-insensitive**
substring, while the legacy `parse_ticket_sheet.filter_booking` keeps a row
iff its product title contains the filter as a **case-sensitive**
substring. -/
theorem c8_filters_amended :
    (∀ (cs : Str) (c : DateTime) (data : List parse_data.PRow),
      fromisoformat cs = some c →
      parse_data.filter_old_orders true cs data =
        some (data.filter (fun r => decide (c.rank ≤ r.startDateF.rank))) ∧
      ∀ r, r ∈ data.filter (fun r => decide (c.rank ≤ r.startDateF.rank)) ↔
        r ∈ data ∧ c.rank ≤ r.startDateF.rank) ∧
    (∀ (pf : Str) (data : List parse_data.PRow) (r : parse_data.PRow),
      pf ≠ [] →
      (r ∈ parse_data.filter_product pf data ↔
        r ∈ data ∧ lowerStr pf <:+: lowerStr r.productTitle)) ∧
    (∀ (cutoff : DateTime) (fs : Str) (b : parse_ticket_sheet.Booking),
      parse_ticket_sheet.parse_bookings_keep true cutoff fs b = some true ↔
        ∃ d, parse_ticket_sheet.date_sort_item b.startDate = some d ∧
          cutoff.rank ≤ d.rank ∧ fs <:+: b.productTitle) := by
  refine ⟨?_, ?_, ?_⟩
  · intro cs c data h
    constructor
    · simp [parse_data.filter_old_orders, h]
    · intro r
      simp [List.mem_filter]
  · intro pf data r hne
    rw [parse_data.filter_product, if_neg hne]
    simp [List.mem_filter, containsSub_iff]
  · intro cutoff fs b
    rw [parse_ticket_sheet.parse_bookings_keep, if_pos rfl]
    cases hd : parse_ticket_sheet.date_sort_item b.startDate with
    | none => simp
    | some d =>
      simp [parse_ticket_sheet.filter_booking, containsSub_iff]

/-- C8 witness: the amended filter characterisations applied at concrete
inputs — the cutoff `2024-11-30` keeps a booking dated exactly at the cutoff
(inclusive bound), and the case-insensitive product filter `"rover"`. -/
theorem c8_filters_amended_witness :
    (fromisoformat "2024-11-30".data = some ⟨2024, 11, 30, 0, 0⟩ ∧
      parse_data.filter_old_orders true "2024-11-30".data
          [⟨⟨2024, 11, 30, 0, 0⟩, "Santa".data⟩,
           ⟨⟨2024, 11, 29, 23, 59⟩, "Santa".data⟩] =
        some ([⟨⟨2024, 11, 30, 0, 0⟩, "Santa".data⟩,
           ⟨⟨2024, 11, 29, 23, 59⟩, "Santa".data⟩].filter
          (fun r => decide ((⟨2024, 11, 30, 0, 0⟩ : DateTime).rank ≤
            r.startDateF.rank)))) ∧
    ("rover".data ≠ [] ∧
      (⟨⟨2024, 11, 30, 0, 0⟩, "Day Rover".data⟩ ∈
          parse_data.filter_product "rover".data
            [⟨⟨2024, 11, 30, 0, 0⟩, "Day Rover".data⟩] ↔
        ⟨⟨2024, 11, 30, 0, 0⟩, "Day Rover".data⟩ ∈
            [(⟨⟨2024, 11, 30, 0, 0⟩, "Day Rover".data⟩ : parse_data.PRow)] ∧
          lowerStr "rover".data <:+: lowerStr "Day Rover".data)) :=
  ⟨⟨by decide, (c8_filters_amended.1 "2024-11-30".data ⟨2024, 11, 30, 0, 0⟩
      [⟨⟨2024, 11, 30, 0, 0⟩, "Santa".data⟩,
       ⟨⟨2024, 11, 29, 23, 59⟩, "Santa".data⟩] (by decide)).1⟩,
   ⟨by decide, c8_filters_amended.2.1 "rover".data
      [⟨⟨2024, 11, 30, 0, 0⟩, "Day Rover".data⟩]
      ⟨⟨2024, 11, 30, 0, 0⟩, "Day Rover".data⟩ (by decide)⟩⟩

theorem mapMo_eq_none {α β : Type} (f : α → Option β) {l : List α}
    (h : ∃ x ∈ l, f x = none) : mapMo f l = none := by
  induction l with
  | nil => simp at h
  | cons x xs ih =>
    rcases h with ⟨y, hy, hfy⟩
    rcases List.mem_cons.mp hy with he | hm
    · subst he
      unfold mapMo
      rw [hfy]
    · have h2 := ih ⟨y, hm, hfy⟩
      unfold mapMo
      rw [h2]
      cases f x <;> rfl

/-- C4 counterexample: the claim says a malformed ticket line does not abort
parsing of the remaining lines and that records are still produced for every
well-formed line in the same cell; in fact one colon-less line makes
`extract_ticket` raise, so the whole cell (including its well-formed
`"Child: 3 (£7.00)"` line) produces nothing. -/
theorem c4_malformed_counterexample :
    extractions.extract_ticket "Adult 2\nChild: 3 (£7.00)".data = none ∧
    extractions.extract_ticket_line "Child: 3 (£7.00)".data =
      some ("ticket_Child".data, 3) ∧
    extractions.extract_ticket "Child: 3 (£7.00)".data =
      some [("ticket_Child".data, 3)] := by
  refine ⟨by decide, by decide, by decide⟩

/-- C4 (amended): a malformed ticket line (missing colon, missing quantity
token, or non-numeric quantity) makes the per-line parse raise, which aborts
the parse of the entire price-categories cell — both in
`extractions.extract_ticket` and in `event_breakdown.parse_tickets` — so no
records at all are produced for that cell (the surrounding dataframe
`apply` / totals loop then fails; there is no best-effort fallback
record). -/
theorem c4_malformed_aborts :
    (∀ cell : Str,
      (∃ l ∈ splitlines cell, extractions.extract_ticket_line l = none) →
      extractions.extract_ticket cell = none) ∧
    (∀ (cell : Str) (b : parse_ticket_sheet.Booking),
      b.accompanyingAdult = none → b.accompanyingSenior = none →
      (∃ l ∈ splitlines cell, event_breakdown.parseTicketLine b l = none) →
      event_breakdown.parse_tickets cell b = none) := by
  constructor
  · intro cell h
    unfold extractions.extract_ticket
    rw [mapMo_eq_none _ h]
    rfl
  · intro cell b ha hs h
    unfold event_breakdown.parse_tickets
    rw [ha, hs]
    show (mapMo (event_breakdown.parseTicketLine b)
      (splitlines cell ++ [] ++ [])).bind _ = none
    rw [List.append_nil, List.append_nil, mapMo_eq_none _ h]
    rfl

/-- C4 witness: the amended abort behaviour applied to the concrete cell
`"Adult 2\nChild: 3 (£7.00)"`, whose first line has no colon. -/
theorem c4_malformed_aborts_witness :
    ((∃ l ∈ splitlines "Adult 2\nChild: 3 (£7.00)".data,
        extractions.extract_ticket_line l = none) ∧
      extractions.extract_ticket "Adult 2\nChild: 3 (£7.00)".data = none) ∧
    ((parse_ticket_sheet.emptyBooking.accompanyingAdult = none) ∧
      (∃ l ∈ splitlines "Adult 2\nChild: 3 (£7.00)".data,
        event_breakdown.parseTicketLine parse_ticket_sheet.emptyBooking l = none) ∧
      event_breakdown.parse_tickets "Adult 2\nChild: 3 (£7.00)".data
        parse_ticket_sheet.emptyBooking = none) :=
  ⟨⟨by decide, c4_malformed_aborts.1 _ (by decide)⟩,
   ⟨by decide, by decide,
    c4_malformed_aborts.2 _ parse_ticket_sheet.emptyBooking rfl rfl (by decide)⟩⟩

/-! ### `update_tickets` lemmas -/

theorem update_tickets_append_all_miss {lines : List Str} {name : Str}
    {val : Int} (h : ∀ l ∈ lines, hasPre (name ++ [':']) l = false) :
    internal.update_tickets lines name val =
      lines ++ [internal.updLine name val] := by
  induction lines with
  | nil => rfl
  | cons l rest ih =>
    simp only [internal.update_tickets]
    rw [if_neg (by simp [h l (by simp)]),
      ih (fun x hx => h x (by simp [hx]))]
    rfl

theorem update_tickets_replace_first {pre post : List Str} {old name : Str}
    {val : Int} (hpre : ∀ l ∈ pre, hasPre (name ++ [':']) l = false)
    (hold : hasPre (name ++ [':']) old = true) :
    internal.update_tickets (pre ++ old :: post) name val =
      pre ++ internal.updLine name val :: post := by
  induction pre with
  | nil =>
    simp only [List.nil_append, internal.update_tickets]
    rw [if_pos (by simp [hold])]
  | cons l rest ih =>
    rw [List.cons_append]
    simp only [internal.update_tickets]
    rw [if_neg (by simp [hpre l (by simp)]),
      ih (fun x hx => hpre x (by simp [hx]))]
    rfl

theorem updLine_eq_append (name : Str) (v : Int) :
    internal.updLine name v = (name ++ [':']) ++ ' ' :: intChars v := by
  simp [internal.updLine]

theorem updLine_ne_nil (name : Str) (v : Int) :
    internal.updLine name v ≠ [] := by
  rw [updLine_eq_append]
  simp

theorem hasPre_updLine_self (name : Str) (v : Int) :
    hasPre (name ++ [':']) (internal.updLine name v) = true := by
  rw [updLine_eq_append]
  exact hasPre_self_append _ _

/-- Re-updating with the same name and value is the identity. -/
theorem update_tickets_fix_self (L : List Str) (name : Str) (v : Int) :
    internal.update_tickets (internal.update_tickets L name v) name v =
      internal.update_tickets L name v := by
  induction L with
  | nil =>
    show internal.update_tickets [internal.updLine name v] name v = _
    simp only [internal.update_tickets]
    rw [if_pos (hasPre_updLine_self name v)]
  | cons l rest ih =>
    simp only [internal.update_tickets]
    by_cases hp : hasPre (name ++ [':']) l = true
    · rw [if_pos hp]
      simp only [internal.update_tickets]
      rw [if_pos (hasPre_updLine_self name v)]
    · rw [if_neg hp]
      simp only [internal.update_tickets]
      rw [if_neg hp, ih]

/-- A fixed point of `update_tickets` decomposes as a prefix of
non-matching lines, the update line itself, and a suffix. -/
theorem update_tickets_fix_decomp {M : List Str} {name : Str} {v : Int}
    (hfix : internal.update_tickets M name v = M) :
    ∃ pre post, M = pre ++ internal.updLine name v :: post ∧
      ∀ l ∈ pre, hasPre (name ++ [':']) l = false := by
  induction M with
  | nil =>
    exact absurd hfix (by simp [internal.update_tickets])
  | cons l rest ih =>
    simp only [internal.update_tickets] at hfix
    by_cases hp : hasPre (name ++ [':']) l = true
    · rw [if_pos hp] at hfix
      have hl : internal.updLine name v = l :=
        ((List.cons.injEq _ _ _ _).mp hfix).1
      exact ⟨[], rest, by simp [← hl], by simp⟩
    · rw [if_neg hp] at hfix
      have ht : internal.update_tickets rest name v = rest :=
        ((List.cons.injEq _ _ _ _).mp hfix).2
      obtain ⟨pre, post, hM, hpre⟩ := ih ht
      refine ⟨l :: pre, post, by simp [hM], ?_⟩
      intro x hx
      rcases List.mem_cons.mp hx with he | hm
      · subst he
        simpa using hp
      · exact hpre x hm

/-- The converse: a decomposed list is a fixed point. -/
theorem update_tickets_fix_of_decomp {pre post : List Str} {name : Str}
    {v : Int} (hpre : ∀ l ∈ pre, hasPre (name ++ [':']) l = false) :
    internal.update_tickets (pre ++ internal.updLine name v :: post) name v =
      pre ++ internal.updLine name v :: post :=
  update_tickets_replace_first hpre (hasPre_updLine_self name v)

/-- Updating a different ticket name preserves a fixed point, provided the
two update lines do not match each other's prefix. -/
theorem update_tickets_fix_cross {M : List Str} {n1 n2 : Str} {v1 v2 : Int}
    (h12 : hasPre (n1 ++ [':']) (internal.updLine n2 v2) = false)
    (h21 : hasPre (n2 ++ [':']) (internal.updLine n1 v1) = false)
    (hfix : internal.update_tickets M n1 v1 = M) :
    internal.update_tickets (internal.update_tickets M n2 v2) n1 v1 =
      internal.update_tickets M n2 v2 := by
  induction M with
  | nil => exact absurd hfix (by simp [internal.update_tickets])
  | cons l rest ih =>
    simp only [internal.update_tickets] at hfix ⊢
    by_cases hp1 : hasPre (n1 ++ [':']) l = true
    · rw [if_pos hp1] at hfix
      have hl : internal.updLine n1 v1 = l :=
        ((List.cons.injEq _ _ _ _).mp hfix).1
      by_cases hp2 : hasPre (n2 ++ [':']) l = true
      · rw [← hl] at hp2
        rw [h21] at hp2
        exact absurd hp2 (by simp)
      · rw [if_neg hp2]
        simp only [internal.update_tickets]
        rw [if_pos hp1, hl]
    · rw [if_neg hp1] at hfix
      have ht : internal.update_tickets rest n1 v1 = rest :=
        ((List.cons.injEq _ _ _ _).mp hfix).2
      by_cases hp2 : hasPre (n2 ++ [':']) l = true
      · rw [if_pos hp2]
        simp only [internal.update_tickets]
        rw [if_neg (by simp [h12]), ht]
      · rw [if_neg hp2]
        simp only [internal.update_tickets]
        rw [if_neg hp1, ih ht]

/-- Dropping a trailing empty line preserves a fixed point of
`update_tickets`. -/
theorem update_tickets_fix_dropTrailingEmpty {M : List Str} {name : Str}
    {v : Int} (hfix : internal.update_tickets M name v = M) :
    internal.update_tickets (dropTrailingEmpty M) name v =
      dropTrailingEmpty M := by
  obtain ⟨pre, post, hM, hpre⟩ := update_tickets_fix_decomp hfix
  unfold dropTrailingEmpty
  split
  · rename_i hlast
    have hpost : post ≠ [] := by
      intro h
      subst h
      rw [hM, List.getLast?_concat] at hlast
      have := (Option.some.injEq _ _).mp hlast
      exact updLine_ne_nil name v this
    rw [hM, List.dropLast_append_of_ne_nil _ (by simp),
      List.dropLast_cons_of_ne_nil hpost]
    exact update_tickets_fix_of_decomp hpre
  · rw [hM]
    exact update_tickets_fix_of_decomp hpre

theorem update_tickets_mem {L : List Str} {name l2 : Str} {v : Int}
    (h : l2 ∈ internal.update_tickets L name v) :
    l2 ∈ L ∨ l2 = internal.updLine name v := by
  induction L with
  | nil =>
    simp only [internal.update_tickets, List.mem_singleton] at h
    exact Or.inr h
  | cons l rest ih =>
    simp only [internal.update_tickets] at h
    by_cases hp : hasPre (name ++ [':']) l = true
    · rw [if_pos hp] at h
      rcases List.mem_cons.mp h with he | hm
      · exact Or.inr he
      · exact Or.inl (by simp [hm])
    · rw [if_neg hp] at h
      rcases List.mem_cons.mp h with he | hm
      · exact Or.inl (by simp [he])
      · rcases ih hm with h1 | h1
        · exact Or.inl (by simp [h1])
        · exact Or.inr h1

theorem splitOnChar_mem_not_sep {sep : Char} {l s : Str}
    (h : s ∈ splitOnChar sep l) : sep ∉ s := by
  induction l generalizing s with
  | nil =>
    simp only [splitOnChar, List.mem_singleton] at h
    subst h
    simp
  | cons c rest ih =>
    simp only [splitOnChar] at h
    by_cases hc : c = sep
    · rw [if_pos hc] at h
      rcases List.mem_cons.mp h with he | hm
      · subst he; simp
      · exact ih hm
    · rw [if_neg hc] at h
      cases hsp : splitOnChar sep rest with
      | nil => exact absurd hsp (splitOnChar_ne_nil sep rest)
      | cons p ps =>
        rw [hsp] at h
        rcases List.mem_cons.mp h with he | hm
        · subst he
          intro hmem
          rcases List.mem_cons.mp hmem with he2 | hm2
          · exact hc he2.symm
          · exact ih (hsp ▸ List.mem_cons_self p ps) hm2
        · exact ih (hsp ▸ List.mem_cons.mpr (Or.inr hm))

theorem splitlines_mem_no_newline {x s : Str} (h : s ∈ splitlines x) :
    '\n' ∉ s := by
  unfold splitlines at h
  split at h
  · simp at h
  · simp only [] at h
    split at h
    · exact splitOnChar_mem_not_sep ((List.dropLast_sublist _).mem h)
    · exact splitOnChar_mem_not_sep h

theorem no_newline_natChars (n : Nat) : '\n' ∉ natChars n := by
  intro h
  have := natChars_digits n _ h
  exact absurd this (by decide)

theorem no_newline_intChars (v : Int) : '\n' ∉ intChars v := by
  unfold intChars
  split
  · intro h
    rcases List.mem_cons.mp h with h1 | h1
    · exact absurd h1 (by decide)
    · exact no_newline_natChars _ h1
  · exact no_newline_natChars _

theorem no_newline_updLine {name : Str} (h : '\n' ∉ name) (v : Int) :
    '\n' ∉ internal.updLine name v := by
  rw [updLine_eq_append]
  intro hm
  rcases List.mem_append.mp hm with h1 | h1
  · rcases List.mem_append.mp h1 with h2 | h2
    · exact h h2
    · rcases List.mem_singleton.mp h2 with h3
      exact absurd h3 (by decide)
  · rcases List.mem_cons.mp h1 with h2 | h2
    · exact absurd h2 (by decide)
    · exact no_newline_intChars v h2

theorem mem_dropTrailingEmpty {ls : List Str} {x : Str}
    (h : x ∈ dropTrailingEmpty ls) : x ∈ ls := by
  unfold dropTrailingEmpty at h
  split at h
  · exact (List.dropLast_sublist _).mem h
  · exact h

/-- C3 counterexample: the claim says re-splitting an already-split
price-categories string produces exactly the same string, but a cell ending
in an empty line loses its trailing newline on the second pass: with one
non-infant present, `"Child: 9\n\n"` splits once to `"Child: 1\n"` and a
second application yields `"Child: 1"`, a different string. -/
theorem c3_idempotence_counterexample :
    extractions.split_infant_present ["B5".data] "Child: 9\n\n".data =
      "Child: 1\n".data ∧
    extractions.split_infant_present ["B5".data] "Child: 1\n".data =
      "Child: 1".data ∧
    ("Child: 1".data : Str) ≠ "Child: 1\n".data := by
  exact ⟨by decide, by decide, by decide⟩

/-- C3 (amended): the child/infant reclassification is idempotent at the
level of ticket lines and quantities: for every formatted present list and
price-categories string, the second application of `split_infant_present`
produces the same lines as the first with at most a single trailing empty
line dropped — the `Child` quantity is not subtracted a second time and the
`Infant` quantity is unchanged — and the resulting string is exactly the
once-split string except that a trailing newline, when present, is
dropped. -/
theorem c3_split_infant_idempotent (presents : List Str) (cats : Str) :
    splitlines (extractions.split_infant_present presents
        (extractions.split_infant_present presents cats)) =
      dropTrailingEmpty
        (splitlines (extractions.split_infant_present presents cats)) ∧
    (extractions.split_infant_present presents
        (extractions.split_infant_present presents cats) =
      extractions.split_infant_present presents cats ∨
    extractions.split_infant_present presents cats =
      extractions.split_infant_present presents
        (extractions.split_infant_present presents cats) ++ ['\n']) := by
  set c := (internal.categorise_presents presents).1 with hc
  set i := (internal.categorise_presents presents).2 with hi
  set M := extractions.split_infant_lines presents (splitlines cats) with hM
  -- every line of the once-split list is newline-free
  have hM_elems : ∀ l ∈ M, '\n' ∉ l := by
    intro l hl
    rw [hM] at hl
    unfold extractions.split_infant_lines at hl
    rw [← hc, ← hi] at hl
    by_cases hiz : i ≠ 0
    · rw [if_pos hiz] at hl
      rcases update_tickets_mem hl with h1 | h1
      · rcases update_tickets_mem h1 with h2 | h2
        · exact splitlines_mem_no_newline h2
        · rw [h2]
          exact no_newline_updLine (by decide) _
      · rw [h1]
        exact no_newline_updLine (by decide) _
    · rw [if_neg hiz] at hl
      rcases update_tickets_mem hl with h1 | h1
      · exact splitlines_mem_no_newline h1
      · rw [h1]
        exact no_newline_updLine (by decide) _
  -- the Child and (when applicable) Infant updates fix the once-split list
  have h12 : hasPre ("Child".data ++ [':'])
      (internal.updLine "Infant".data (i : Int)) = false := by
    rw [updLine_eq_append]
    show hasPre ('C' :: _) ('I' :: _) = false
    simp [hasPre]
  have h21 : hasPre ("Infant".data ++ [':'])
      (internal.updLine "Child".data (c : Int)) = false := by
    rw [updLine_eq_append]
    show hasPre ('I' :: _) ('C' :: _) = false
    simp [hasPre]
  have hfixC : internal.update_tickets M "Child".data (c : Int) = M := by
    rw [hM]
    unfold extractions.split_infant_lines
    rw [← hc, ← hi]
    by_cases hiz : i ≠ 0
    · rw [if_pos hiz]
      exact update_tickets_fix_cross h12 h21 (update_tickets_fix_self _ _ _)
    · rw [if_neg hiz]
      exact update_tickets_fix_self _ _ _
  have hfixI : i ≠ 0 → internal.update_tickets M "Infant".data (i : Int) = M := by
    intro hiz
    rw [hM]
    unfold extractions.split_infant_lines
    rw [← hc, ← hi, if_pos hiz]
    exact update_tickets_fix_self _ _ _
  -- the second pass fixes the normalised line list
  have h2nd : extractions.split_infant_lines presents (dropTrailingEmpty M) =
      dropTrailingEmpty M := by
    unfold extractions.split_infant_lines
    rw [← hc, ← hi]
    by_cases hiz : i ≠ 0
    · rw [if_pos hiz, update_tickets_fix_dropTrailingEmpty hfixC,
        update_tickets_fix_dropTrailingEmpty (hfixI hiz)]
    · rw [if_neg hiz, update_tickets_fix_dropTrailingEmpty hfixC]
  have honce : extractions.split_infant_present presents cats = joinLines M := by
    rw [hM]
    rfl
  have hsplit_once : splitlines (extractions.split_infant_present presents cats) =
      dropTrailingEmpty M := by
    rw [honce]
    exact splitlines_joinLines hM_elems
  have htwice : extractions.split_infant_present presents
      (extractions.split_infant_present presents cats) =
      joinLines (dropTrailingEmpty M) := by
    show joinLines (extractions.split_infant_lines presents
      (splitlines (extractions.split_infant_present presents cats))) = _
    rw [hsplit_once, h2nd]
  constructor
  · rw [htwice, hsplit_once,
      splitlines_joinLines (fun s hs => hM_elems s (mem_dropTrailingEmpty hs))]
  · rcases joinLines_dropTrailingEmpty M with h1 | h1
    · left
      rw [htwice, honce, h1]
    · right
      rw [htwice, honce, h1]

/-! ### Stable-sort lemmas -/

theorem filter_key_orderedInsert {α β : Type} [LinearOrder β] (k : α → β)
    (v : β) [DecidableEq β] (a : α) (s : List α) :
    (List.orderedInsert (fun x y => k x ≤ k y) a s).filter
        (fun x => decide (k x = v)) =
      if k a = v then a :: s.filter (fun x => decide (k x = v))
      else s.filter (fun x => decide (k x = v)) := by
  induction s with
  | nil =>
    simp only [List.orderedInsert]
    by_cases hv : k a = v
    · simp only [List.filter_cons, List.filter_nil, decide_eq_true_eq,
        if_pos hv]
    · simp only [List.filter_cons, List.filter_nil, decide_eq_true_eq,
        if_neg hv]
  | cons b t ih =>
    simp only [List.orderedInsert]
    by_cases hr : k a ≤ k b
    · rw [if_pos hr]
      by_cases hv : k a = v
      · simp only [List.filter_cons, decide_eq_true_eq, if_pos hv]
      · simp only [List.filter_cons, decide_eq_true_eq, if_neg hv]
    · rw [if_neg hr]
      have hb : k b < k a := lt_of_not_le hr
      by_cases hv : k a = v
      · have hbv : ¬ k b = v := by
          intro he
          rw [he, hv] at hb
          exact lt_irrefl v hb
        simp only [List.filter_cons, decide_eq_true_eq, if_pos hv,
          if_neg hbv, ih]
      · by_cases hbv : k b = v
        · simp only [List.filter_cons, decide_eq_true_eq, if_pos hbv,
            if_neg hv, ih]
        · simp only [List.filter_cons, decide_eq_true_eq, if_neg hbv,
            if_neg hv, ih]

/-- Insertion sort by a key is stable: the subsequence of elements with any
given key value is unchanged. -/
theorem filter_key_insertionSort {α β : Type} [LinearOrder β] (k : α → β)
    (v : β) [DecidableEq β] (l : List α) :
    (List.insertionSort (fun x y => k x ≤ k y) l).filter
        (fun x => decide (k x = v)) =
      l.filter (fun x => decide (k x = v)) := by
  induction l with
  | nil => rfl
  | cons a t ih =>
    simp only [List.insertionSort]
    rw [filter_key_orderedInsert k v a]
    by_cases hv : k a = v
    · rw [if_pos hv, ih]
      simp [List.filter, hv]
    · rw [if_neg hv, ih]
      simp [List.filter, hv]

/-- C7: the booking sort engine (`sort_bookings` with a single ascending
string column) is case-insensitive and stable, and idempotent on its own
output: the sort succeeds and returns the stable insertion sort of the rows
by the lowercased cell (`strKey`), rows with equal keys keep their original
relative order (the filtered subsequence at each key value is unchanged),
the output is sorted by the lowercased key, and sorting the output again
returns it unchanged. -/
theorem c7_sort_stable_ci_idempotent (col : Str) (labels : List Str)
    (rows : List (List Str)) (i : Nat)
    (hidx : labels.indexOf? col = some i)
    (hlen : rows.all (fun r => decide (i < r.length)) = true) :
    parse_ticket_sheet.sort_bookings [(col, parse_ticket_sheet.SortDir.asc)]
        labels rows =
      some (List.insertionSort
        (fun a b => parse_ticket_sheet.strKey i a ≤ parse_ticket_sheet.strKey i b)
        rows) ∧
    (∀ v : Str,
      (List.insertionSort
        (fun a b => parse_ticket_sheet.strKey i a ≤ parse_ticket_sheet.strKey i b)
        rows).filter (fun r => decide (parse_ticket_sheet.strKey i r = v)) =
      rows.filter (fun r => decide (parse_ticket_sheet.strKey i r = v))) ∧
    List.Sorted
      (fun a b => parse_ticket_sheet.strKey i a ≤ parse_ticket_sheet.strKey i b)
      (List.insertionSort
        (fun a b => parse_ticket_sheet.strKey i a ≤ parse_ticket_sheet.strKey i b)
        rows) ∧
    parse_ticket_sheet.sort_bookings [(col, parse_ticket_sheet.SortDir.asc)]
        labels
        (List.insertionSort
          (fun a b => parse_ticket_sheet.strKey i a ≤ parse_ticket_sheet.strKey i b)
          rows) =
      some (List.insertionSort
        (fun a b => parse_ticket_sheet.strKey i a ≤ parse_ticket_sheet.strKey i b)
        rows) := by
  haveI hTot : IsTotal (List Str)
      (fun a b => parse_ticket_sheet.strKey i a ≤ parse_ticket_sheet.strKey i b) :=
    ⟨fun a b => le_total _ _⟩
  haveI hTrans : IsTrans (List Str)
      (fun a b => parse_ticket_sheet.strKey i a ≤ parse_ticket_sheet.strKey i b) :=
    ⟨fun _ _ _ h1 h2 => le_trans h1 h2⟩
  have hsorted := List.sorted_insertionSort
    (fun a b => parse_ticket_sheet.strKey i a ≤ parse_ticket_sheet.strKey i b)
    rows
  have hsort1 : parse_ticket_sheet.sort_bookings
      [(col, parse_ticket_sheet.SortDir.asc)] labels rows =
      some (List.insertionSort
        (fun a b => parse_ticket_sheet.strKey i a ≤ parse_ticket_sheet.strKey i b)
        rows) := by
    unfold parse_ticket_sheet.sort_bookings
    simp only [List.foldlM, hidx]
    unfold parse_ticket_sheet.applySort
    rw [if_pos hlen]
    rfl
  refine ⟨hsort1, fun v => filter_key_insertionSort _ v rows, hsorted, ?_⟩
  have hlen2 : (List.insertionSort
      (fun a b => parse_ticket_sheet.strKey i a ≤ parse_ticket_sheet.strKey i b)
      rows).all (fun r => decide (i < r.length)) = true := by
    rw [List.all_eq_true] at hlen ⊢
    intro r hr
    exact hlen r ((List.mem_insertionSort _).mp hr)
  unfold parse_ticket_sheet.sort_bookings
  simp only [List.foldlM, hidx]
  unfold parse_ticket_sheet.applySort
  rw [if_pos hlen2]
  rw [List.Sorted.insertionSort_eq hsorted]
  rfl

/-- C7 witness: the sort characterisation at a concrete header and row list
with mixed-case names (`bob`, `Alice`, `ALICE`): the two rows with equal
lowercased key keep their original order. -/
theorem c7_sort_witness :
    (["Last".data].indexOf? "Last".data = some 0 ∧
      ([["bob".data], ["Alice".data], ["ALICE".data]].all
        (fun r => decide (0 < r.length))) = true) ∧
    parse_ticket_sheet.sort_bookings
        [("Last".data, parse_ticket_sheet.SortDir.asc)] ["Last".data]
        [["bob".data], ["Alice".data], ["ALICE".data]] =
      some (List.insertionSort
        (fun a b => parse_ticket_sheet.strKey 0 a ≤ parse_ticket_sheet.strKey 0 b)
        [["bob".data], ["Alice".data], ["ALICE".data]]) ∧
    List.insertionSort
        (fun a b => parse_ticket_sheet.strKey 0 a ≤ parse_ticket_sheet.strKey 0 b)
        [["bob".data], ["Alice".data], ["ALICE".data]] =
      [["Alice".data], ["ALICE".data], ["bob".data]] :=
  ⟨⟨by decide, by decide⟩,
   (c7_sort_stable_ci_idempotent "Last".data ["Last".data]
      [["bob".data], ["Alice".data], ["ALICE".data]] 0
      (by decide) (by decide)).1,
   by decide⟩

/-! ### Walk-in price lemmas -/

theorem slash_not_mem_pad2 (n : Nat) : '/' ∉ pad2 n := by
  intro hm
  exact absurd (pad2_digits n '/' hm) (by decide)

theorem splitOnChar_fmtDDMMYY (dt : DateTime) :
    splitOnChar '/' (fmtDDMMYY dt) =
      [pad2 dt.day, pad2 dt.month, pad2 (dt.year % 100)] := by
  unfold fmtDDMMYY
  rw [List.append_assoc, List.cons_append]
  rw [splitOnChar_append (slash_not_mem_pad2 dt.day),
    splitOnChar_append (slash_not_mem_pad2 dt.month),
    splitOnChar_not_mem (slash_not_mem_pad2 (dt.year % 100))]

theorem accContribution_zero (f : Option Str)
    (hf : f = none ∨ f = some "0".data) (p : ℚ) :
    parse_ticket_sheet.accContribution f p = 0 := by
  rcases hf with h | h <;> subst h
  · rfl
  · simp only [parse_ticket_sheet.accContribution]
    rw [show parseInt "0".data = some 0 from by decide]
    simp

/-- C1: the walk-in price reconstruction.  If the raw price field parses to
exactly `0.0`, the booking's formatted date and product title hit an entry of
the event price table whose prices give `Adult` the value `9`, the price
categories cell is a single Adult line with quantity `1`, the non-internet
child-age text contains no infant bracket (no occurrence of `to`), and the
accompanying adult and senior fields are absent or `0`, then
`calculate_walkin_price` returns the string `9.00`. -/
theorem c1_walkin_reconstruction
    (tbl : List (Str × parse_ticket_sheet.EventPrices)) (value : Str)
    (b : parse_ticket_sheet.Booking) (dt : DateTime)
    (entry : parse_ticket_sheet.EventPrices) (line : Str)
    (hzero : parseFloat (parse_ticket_sheet.tidy_price value) = some 0)
    (hdate : parse_ticket_sheet.date_sort_item b.startDate = some dt)
    (hentry : alGet (fmtDDMMYY dt ++ ' ' :: b.productTitle) tbl = some entry)
    (hadult : alGetD "Adult".data 0 entry.event = 9)
    (hlines : splitlines b.priceCategories = [line])
    (hline : parse_ticket_sheet.walkinTicketLine line = some ("Adult".data, 1))
    (hinf : countSub 't' ['o'] (b.childAgeNonInternet.getD []) = 0)
    (hacc : b.accompanyingAdult = none ∨ b.accompanyingAdult = some "0".data)
    (hsen : b.accompanyingSenior = none ∨ b.accompanyingSenior = some "0".data) :
    parse_ticket_sheet.calculate_walkin_price tbl value b =
      some "9.00".data := by
  have hw : parse_ticket_sheet.walkinTry tbl b = some 9 := by
    unfold parse_ticket_sheet.walkinTry
    rw [hdate]
    simp only [Option.bind_eq_bind, Option.some_bind, hentry, hlines,
      Option.map_some', Option.getD_some]
    simp only [mapMo, hline]
    simp only [Option.some_bind, List.map_cons, List.map_nil, List.sum_cons,
      List.sum_nil, hinf, splitOnChar_fmtDDMMYY, List.get?_cons_succ,
      List.get?_cons_zero, Option.some_bind]
    rw [accContribution_zero b.accompanyingAdult hacc,
      accContribution_zero b.accompanyingSenior hsen, hadult]
    show some _ = some (9 : ℚ)
    congr 1
    push_cast
    ring
  unfold parse_ticket_sheet.calculate_walkin_price
  rw [hzero]
  show (if (0 : ℚ) = 0 then _ else _) = _
  rw [if_pos rfl, hw]
  show some (formatQ2 9) = some "9.00".data
  rw [show formatQ2 9 = "9.00".data from by with_unfolding_all rfl]

/-- C1 witness: the spec's concrete scenario, raw price `&pound;0.00`, table
entry `30/11/24 Santa` with `Adult: 9.00`, one Adult ticket, no infants, no
accompanying adults or seniors. -/
theorem c1_walkin_witness :
    (parseFloat (parse_ticket_sheet.tidy_price "&pound;0.00".data) = some 0 ∧
     parse_ticket_sheet.date_sort_item
       "Saturday November 30th 2024 11:30 AM".data =
       some ⟨2024, 11, 30, 11, 30⟩ ∧
     parse_ticket_sheet.walkinTicketLine "Adult: 1 (£9.00)".data =
       some ("Adult".data, 1)) ∧
    parse_ticket_sheet.calculate_walkin_price
        [("30/11/24 Santa".data, ⟨[("Adult".data, 9)]⟩)]
        "&pound;0.00".data
        { parse_ticket_sheet.emptyBooking with
            startDate := "Saturday November 30th 2024 11:30 AM".data,
            productTitle := "Santa".data,
            priceCategories := "Adult: 1 (£9.00)".data } =
      some "9.00".data :=
  ⟨⟨by with_unfolding_all rfl, by with_unfolding_all rfl, by decide⟩,
   c1_walkin_reconstruction
     [("30/11/24 Santa".data, ⟨[("Adult".data, 9)]⟩)] "&pound;0.00".data
     { parse_ticket_sheet.emptyBooking with
         startDate := "Saturday November 30th 2024 11:30 AM".data,
         productTitle := "Santa".data,
         priceCategories := "Adult: 1 (£9.00)".data }
     ⟨2024, 11, 30, 11, 30⟩ ⟨[("Adult".data, 9)]⟩ "Adult: 1 (£9.00)".data
     (by with_unfolding_all rfl) (by with_unfolding_all rfl)
     (by with_unfolding_all rfl) (by with_unfolding_all rfl)
     (by decide) (by decide) (by decide) (Or.inl rfl) (Or.inl rfl)⟩

/-! ### Tally grid lemmas -/

theorem getD_of_getElem? {α : Type} {l : List α} {n : Nat} {a : α} (d : α)
    (h : l[n]? = some a) : l.getD n d = a := by
  rw [List.getD_eq_getElem?_getD, h]
  rfl

theorem getD_set_self {α : Type} {l : List α} {n : Nat} (a d : α)
    (h : n < l.length) : (l.set n a).getD n d = a := by
  rw [List.getD_eq_getElem?_getD, List.getElem?_set_self h]
  rfl

theorem getD_set_ne {α : Type} {l : List α} {n m : Nat} (a d : α)
    (h : n ≠ m) : (l.set n a).getD m d = l.getD m d := by
  rw [List.getD_eq_getElem?_getD, List.getElem?_set_ne h,
    ← List.getD_eq_getElem?_getD]

theorem markLastEndFamily_train_limit (l : List tally.TCell) :
    ∀ c ∈ tally.markLastEndFamily l, ∃ c0 ∈ l, c.train_limit = c0.train_limit := by
  induction l with
  | nil => intro c hc; cases hc
  | cons a t ih =>
    cases t with
    | nil =>
      intro c hc
      simp only [tally.markLastEndFamily, List.mem_singleton] at hc
      subst hc
      exact ⟨a, List.mem_singleton_self a, rfl⟩
    | cons b t2 =>
      intro c hc
      simp only [tally.markLastEndFamily, List.mem_cons] at hc
      rcases hc with h | h
      · subst h
        exact ⟨c, List.mem_cons_self c (b :: t2), rfl⟩
      · rcases ih c h with ⟨c0, hm, he⟩
        exact ⟨c0, List.mem_cons_of_mem a hm, he⟩

theorem colCells_train_limit (data : List tally.TRow) (t : Str) :
    ∀ c ∈ tally.colCells data t, c.train_limit = false := by
  intro c hc
  unfold tally.colCells at hc
  rw [List.mem_flatten] at hc
  rcases hc with ⟨l, hl, hcl⟩
  rw [List.mem_map] at hl
  rcases hl with ⟨r, hr, rfl⟩
  unfold tally.formatPresents at hcl
  rcases markLastEndFamily_train_limit _ c hcl with ⟨c0, hc0, he⟩
  rw [List.mem_map] at hc0
  rcases hc0 with ⟨p, hp, rfl⟩
  rw [he]

theorem foldl_max_le_init (l : List Nat) : ∀ b : Nat, b ≤ l.foldl max b := by
  induction l with
  | nil => intro b; exact le_refl b
  | cons x t ih => intro b; exact le_trans (le_max_left b x) (ih (max b x))

theorem mem_le_foldl_max (a : Nat) (l : List Nat) (h : a ∈ l) :
    ∀ b : Nat, a ≤ l.foldl max b := by
  induction l with
  | nil => cases h
  | cons x t ih =>
    intro b
    rw [List.foldl_cons]
    rcases List.mem_cons.mp h with he | hm
    · subst he
      exact le_trans (le_max_right b a) (foldl_max_le_init t (max b a))
    · exact ih hm (max b x)

theorem limit_lt_numRows {limits : List (Str × Nat)} {j : Nat} {t : Str}
    {L : Nat} (hj : limits.get? j = some (t, L)) :
    L - 1 < tally.numRowsFor limits := by
  have hmem : (t, L) ∈ limits := List.get?_mem hj
  have hL : L ∈ limits.map Prod.snd := List.mem_map.mpr ⟨(t, L), hmem, rfl⟩
  have h1 : L ≤ (limits.map Prod.snd).foldl max 0 := mem_le_foldl_max L _ hL 0
  unfold tally.numRowsFor
  have h2 : L - 1 < (limits.map Prod.snd).foldl max 0 + 1 := by omega
  exact lt_of_lt_of_le h2 (le_max_left _ _)

theorem tally_render_cell (data : List tally.TRow) (limits : List (Str × Nat))
    (j : Nat) (t : Str) (L : Nat) (hj : limits.get? j = some (t, L))
    (r0 : Nat) (hr : r0 < tally.numRowsFor limits) :
    (tally.gridCell (tally.render_tally_data data limits) r0 j).train_limit =
      decide (r0 + 1 = L) := by
  unfold tally.gridCell tally.render_tally_data
  rw [List.get?_eq_getElem?] at hj
  simp only [List.getD_eq_getElem?_getD]
  rw [List.getElem?_map, List.getElem?_range hr]
  simp only [Option.map_some', Option.getD_some]
  rw [List.getElem?_map, hj]
  simp only [Option.map_some', Option.getD_some]
  have hb : ((tally.colCells data t)[r0]?.getD tally.defaultTCell).train_limit =
      false := by
    rcases h : (tally.colCells data t)[r0]? with _ | c
    · rfl
    · simp only [Option.getD_some]
      exact colCells_train_limit data t c (List.getElem?_mem h)
  show (((tally.colCells data t)[r0]?.getD tally.defaultTCell).train_limit ||
      decide (r0 + 1 = L)) = decide (r0 + 1 = L)
  rw [hb, Bool.false_or]

theorem allFalse_gridCellS {g : List (List server.SCell)}
    (h : ∀ row ∈ g, ∀ cell ∈ row, cell.train_limit = false) (r c : Nat) :
    (server.gridCellS g r c).train_limit = false := by
  unfold server.gridCellS
  simp only [List.getD_eq_getElem?_getD]
  rcases hr : g[r]? with _ | row
  · simp only [Option.getD_none, List.getElem?_nil]
    rfl
  · simp only [Option.getD_some]
    rcases hc : row[c]? with _ | cell
    · rfl
    · simp only [Option.getD_some]
      exact h row (List.getElem?_mem hr) cell (List.getElem?_mem hc)

theorem allFalse_setGrid {g g' : List (List server.SCell)} {r c : Nat}
    {v : server.SCell} (h : server.setGrid g r c v = some g')
    (hv : v.train_limit = false)
    (hg : ∀ row ∈ g, ∀ cell ∈ row, cell.train_limit = false) :
    ∀ row ∈ g', ∀ cell ∈ row, cell.train_limit = false := by
  unfold server.setGrid at h
  rcases hrow : g.get? r with _ | row <;> simp only [hrow] at h
  · exact Option.noConfusion h
  · by_cases hc : c < row.length
    · rw [if_pos hc] at h
      simp only [Option.some.injEq] at h
      subst h
      intro row' hrow' cell hcell
      rcases List.mem_or_eq_of_mem_set hrow' with hm | he
      · exact hg row' hm cell hcell
      · subst he
        rcases List.mem_or_eq_of_mem_set hcell with hm | he
        · exact hg row (List.get?_mem hrow) cell hm
        · subst he
          exact hv
    · rw [if_neg hc] at h
      cases h

theorem allFalse_modifyGrid {g g' : List (List server.SCell)} {r c : Nat}
    {f : server.SCell → server.SCell}
    (h : server.modifyGrid g r c f = some g')
    (hf : ∀ cell, (f cell).train_limit = cell.train_limit)
    (hg : ∀ row ∈ g, ∀ cell ∈ row, cell.train_limit = false) :
    ∀ row ∈ g', ∀ cell ∈ row, cell.train_limit = false := by
  unfold server.modifyGrid at h
  rcases hrow : g.get? r with _ | row <;> simp only [hrow] at h
  · exact Option.noConfusion h
  · rcases hcell : row.get? c with _ | cell <;> simp only [hcell] at h
    · exact Option.noConfusion h
    · simp only [Option.some.injEq] at h
      subst h
      intro row' hrow' cell' hcell'
      rcases List.mem_or_eq_of_mem_set hrow' with hm | he
      · exact hg row' hm cell' hcell'
      · subst he
        rcases List.mem_or_eq_of_mem_set hcell' with hm | he
        · exact hg row (List.get?_mem hrow) cell' hm
        · subst he
          rw [hf cell]
          exact hg row (List.get?_mem hrow) cell (List.get?_mem hcell)

theorem foldlM_option_preserve {α β : Type} (P : α → Prop)
    (f : α → β → Option α)
    (hf : ∀ a b a2, f a b = some a2 → P a → P a2) :
    ∀ (l : List β) (a a2 : α), List.foldlM f a l = some a2 → P a → P a2 := by
  intro l
  induction l with
  | nil =>
    intro a a2 h hp
    rw [List.foldlM_nil] at h
    cases h
    exact hp
  | cons x t ih =>
    intro a a2 h hp
    rw [List.foldlM_cons] at h
    simp only [Option.bind_eq_bind] at h
    rcases hx : f a x with _ | a1 <;> rw [hx] at h
    · simp at h
    · simp only [Option.some_bind] at h
      exact ih a1 a2 h (hf a x a1 hx hp)

theorem allFalse_stepPresent {train oid : Str} {st st' : server.SState}
    {p : Str} (h : server.stepPresent train oid st p = some st')
    (hg : ∀ row ∈ st.grid, ∀ cell ∈ row, cell.train_limit = false) :
    ∀ row ∈ st'.grid, ∀ cell ∈ row, cell.train_limit = false := by
  unfold server.stepPresent at h
  simp only [Option.bind_eq_bind] at h
  rcases hr : alGet train st.ctr with _ | row <;> rw [hr] at h
  · simp at h
  · simp only [Option.some_bind] at h
    rcases hcol : server.train_times.indexOf? train with _ | column <;>
      rw [hcol] at h
    · simp at h
    · simp only [Option.some_bind] at h
      rcases hset : server.setGrid st.grid row column ⟨p, false, false, oid⟩
        with _ | g2 <;> rw [hset] at h
      · simp at h
      · simp only [Option.some_bind, Option.pure_def, Option.some.injEq] at h
        subst h
        exact allFalse_setGrid hset rfl hg

theorem allFalse_stepOrder {train : Str} {st st' : server.SState}
    {o : server.SOrder} (h : server.stepOrder train st o = some st')
    (hg : ∀ row ∈ st.grid, ∀ cell ∈ row, cell.train_limit = false) :
    ∀ row ∈ st'.grid, ∀ cell ∈ row, cell.train_limit = false := by
  unfold server.stepOrder at h
  simp only [Option.bind_eq_bind] at h
  rcases h2 : o.presents.foldlM (server.stepPresent train o.order_id) st
    with _ | st2 <;> rw [h2] at h
  · simp at h
  · simp only [Option.some_bind] at h
    have hg2 : ∀ row ∈ st2.grid, ∀ cell ∈ row, cell.train_limit = false :=
      foldlM_option_preserve
        (fun s => ∀ row ∈ s.grid, ∀ cell ∈ row, cell.train_limit = false)
        (server.stepPresent train o.order_id)
        (fun a b a2 ha hp => allFalse_stepPresent ha hp)
        o.presents st st2 h2 hg
    rcases hl : st2.last with _ | rc <;> simp only [hl] at h
    · exact Option.noConfusion h
    · rcases hmod : server.modifyGrid st2.grid rc.1 rc.2 server.markEndFamily
        with _ | g2 <;> rw [hmod] at h
      · simp at h
      · simp only [Option.bind_eq_bind, Option.some_bind, Option.pure_def,
          Option.some.injEq] at h
        subst h
        exact allFalse_modifyGrid hmod (fun cell => rfl) hg2

theorem gridCellS_modifyGrid {g g' : List (List server.SCell)} {r c : Nat}
    {f : server.SCell → server.SCell}
    (h : server.modifyGrid g r c f = some g') (r' c' : Nat) :
    server.gridCellS g' r' c' =
      if r = r' ∧ c = c' then f (server.gridCellS g r c)
      else server.gridCellS g r' c' := by
  unfold server.modifyGrid at h
  rcases hrow : g.get? r with _ | row <;> simp only [hrow] at h
  · exact Option.noConfusion h
  · rcases hcell : row.get? c with _ | cell <;> simp only [hcell] at h
    · exact Option.noConfusion h
    · simp only [Option.some.injEq] at h
      subst h
      rw [List.get?_eq_getElem?] at hrow hcell
      have hrl : r < g.length := (List.getElem?_eq_some.mp hrow).1
      have hcl : c < row.length := (List.getElem?_eq_some.mp hcell).1
      unfold server.gridCellS
      simp only [List.getD_eq_getElem?_getD, hrow, hcell, Option.getD_some]
      by_cases hr' : r = r'
      · subst hr'
        rw [List.getElem?_set_self hrl]
        simp only [Option.getD_some]
        by_cases hc' : c = c'
        · subst hc'
          rw [if_pos (show True ∧ c = c from ⟨trivial, rfl⟩),
            List.getElem?_set_self hcl]
          simp only [Option.getD_some]
        · rw [if_neg (fun hp => hc' hp.2), List.getElem?_set_ne hc']
          rw [hrow]
          simp only [Option.getD_some]
      · rw [if_neg (fun hp => hr' hp.1), List.getElem?_set_ne hr']

theorem markerLoop_train_limit (pairs : List (Str × Nat)) :
    ∀ (g g' : List (List server.SCell)),
      server.markerLoop pairs g = some g' → ∀ r c : Nat,
        ((server.gridCellS g' r c).train_limit = true ↔
          (server.gridCellS g r c).train_limit = true ∨
            ∃ tl, tl ∈ pairs ∧ server.train_times.indexOf? tl.1 = some c ∧
              tl.2 - 1 = r) := by
  induction pairs with
  | nil =>
    intro g g' h r c
    unfold server.markerLoop at h
    rw [List.foldlM_nil] at h
    cases h
    simp
  | cons tl rest ih =>
    intro g g' h r c
    unfold server.markerLoop at h
    rw [List.foldlM_cons] at h
    simp only [Option.bind_eq_bind] at h
    rcases hcol : server.train_times.indexOf? tl.1 with _ | j <;>
      rw [hcol] at h
    · simp at h
    · simp only [Option.some_bind] at h
      rcases hmod : server.modifyGrid g (tl.2 - 1) j server.markTrainLimit
        with _ | g1 <;> rw [hmod] at h
      · simp at h
      · simp only [Option.some_bind] at h
        have h2 : server.markerLoop rest g1 = some g' := h
        rw [ih g1 g' h2 r c, gridCellS_modifyGrid hmod r c]
        by_cases hp : tl.2 - 1 = r ∧ j = c
        · rw [if_pos hp]
          constructor
          · intro _
            exact Or.inr ⟨tl, List.mem_cons_self tl rest,
              by rw [hcol, hp.2], hp.1⟩
          · intro _
            exact Or.inl rfl
        · rw [if_neg hp]
          constructor
          · intro hd
            rcases hd with hd | ⟨tl', htl', hcol', hrow'⟩
            · exact Or.inl hd
            · exact Or.inr ⟨tl', List.mem_cons_of_mem tl htl', hcol', hrow'⟩
          · intro hd
            rcases hd with hd | ⟨tl', htl', hcol', hrow'⟩
            · exact Or.inl hd
            · rcases List.mem_cons.mp htl' with he | hm
              · subst he
                rw [hcol] at hcol'
                cases hcol'
                exact absurd ⟨hrow', rfl⟩ hp
              · exact Or.inr ⟨tl', hm, hcol', hrow'⟩

/-- C5: the tally capacity marker.  In `ticket_sheets/tally.render_tally_data`
(for every dataset and every configured limit table): the column of a train
with limit `L` has `train_limit` set exactly at the grid row whose 1-indexed
position is `L`, and that row exists in the grid (`L - 1` is below the row
count).  In the legacy `server.render_tally_data` (whenever it returns a grid
rather than raising): for every configured train of `train_spaces` with limit
`L`, the cell of that train's column at 0-indexed row `r < 26` has
`train_limit = true` exactly when `r + 1 = L`. -/
theorem c5_capacity_marker :
    (∀ (data : List tally.TRow) (limits : List (Str × Nat)) (j : Nat)
        (t : Str) (L : Nat),
      limits.get? j = some (t, L) →
        L - 1 < tally.numRowsFor limits ∧
        ∀ r0 : Nat, r0 < tally.numRowsFor limits →
          (tally.gridCell (tally.render_tally_data data limits) r0 j).train_limit =
            decide (r0 + 1 = L)) ∧
    (∀ (td : List (Str × List server.SOrder)) (g : List (List server.SCell)),
      server.render_tally_data td = some g →
        ∀ tl : Str × Nat, tl ∈ server.train_spaces →
          ∀ c : Nat, server.train_times.indexOf? tl.1 = some c →
            ∀ r : Nat, r < 26 →
              ((server.gridCellS g r c).train_limit = true ↔ r + 1 = tl.2)) := by
  constructor
  · intro data limits j t L hj
    exact ⟨limit_lt_numRows hj, fun r0 hr => tally_render_cell data limits j t L hj r0 hr⟩
  · intro td g h tl htl c hc r hr
    unfold server.render_tally_data at h
    simp only [Option.bind_eq_bind] at h
    rcases hfin : td.foldlM
        (fun st pair => pair.2.foldlM (server.stepOrder pair.1) st)
        ⟨(List.range 26).map (fun _ => server.train_times.map (fun _ => server.emptySCell)),
          server.train_times.map (fun t => (t, 0)), none⟩
      with _ | fin <;> rw [hfin] at h
    · simp at h
    · simp only [Option.some_bind] at h
      have hAF : ∀ row ∈ fin.grid, ∀ cell ∈ row, cell.train_limit = false :=
        foldlM_option_preserve
          (fun st => ∀ row ∈ st.grid, ∀ cell ∈ row, cell.train_limit = false)
          (fun st pair => pair.2.foldlM (server.stepOrder pair.1) st)
          (fun a b a2 ha hp =>
            foldlM_option_preserve
              (fun st => ∀ row ∈ st.grid, ∀ cell ∈ row, cell.train_limit = false)
              (server.stepOrder b.1)
              (fun x y x2 hx hpx => allFalse_stepOrder hx hpx)
              b.2 a a2 ha hp)
          td _ fin hfin
          (by
            intro row hrow cell hcell
            rcases List.mem_map.mp hrow with ⟨_, _, he⟩
            subst he
            rcases List.mem_map.mp hcell with ⟨_, _, he2⟩
            subst he2
            rfl)
      have hmark := markerLoop_train_limit server.train_spaces fin.grid g h r c
      rw [allFalse_gridCellS hAF r c] at hmark
      simp only [Bool.false_eq_true, false_or] at hmark
      rw [hmark]
      constructor
      · rintro ⟨tl', htl', hcol', hrow'⟩
        fin_cases htl <;> fin_cases htl' <;>
          first
            | exact absurd (hc.trans hcol'.symm) (by decide)
            | omega
      · intro h2
        have hL : 1 ≤ tl.2 := by fin_cases htl <;> decide
        exact ⟨tl, htl, hc, by omega⟩

/-- C5 witness: a single order with presents on the `10:30` train; the new
renderer with limit `3` marks row `3` (index `2`), and the legacy renderer
marks row `15` (index `14`) of the `10:30` column. -/
theorem c5_capacity_marker_witness :
    ([("10:30".data, 3)].get? 0 = some ("10:30".data, (3 : Nat)) ∧
     server.render_tally_data [("10:30".data, [⟨"1000".data, ["B3".data]⟩])] =
       some ((server.render_tally_data
         [("10:30".data, [⟨"1000".data, ["B3".data]⟩])]).getD []) ∧
     ("10:30".data, (15 : Nat)) ∈ server.train_spaces) ∧
    (tally.gridCell (tally.render_tally_data
        [⟨"10:30".data, ["B3".data, "G2".data], "1000".data, []⟩]
        [("10:30".data, 3)]) 2 0).train_limit = true ∧
    (server.gridCellS ((server.render_tally_data
        [("10:30".data, [⟨"1000".data, ["B3".data]⟩])]).getD []) 14 0).train_limit =
      true :=
  ⟨⟨by decide, rfl, by decide⟩,
   ((c5_capacity_marker.1 [⟨"10:30".data, ["B3".data, "G2".data], "1000".data, []⟩]
      [("10:30".data, 3)] 0 "10:30".data 3 (by decide)).2 2 (by decide)).trans rfl,
   (c5_capacity_marker.2 [("10:30".data, [⟨"1000".data, ["B3".data]⟩])] _ rfl
      ("10:30".data, 15) (by decide) 0 (by decide) 14 (by decide)).mpr rfl⟩

/-! ### Ordinal-suffix stripping lemmas -/

theorem stripOrdinalsAux_congr : ∀ (f1 : Nat), ∀ (f2 : Nat) (l : Str),
    l.length ≤ f1 → l.length ≤ f2 →
    stripOrdinalsAux f1 l = stripOrdinalsAux f2 l := by
  intro f1
  induction f1 with
  | zero =>
    intro f2 l h1 h2
    have he : l = [] := List.length_eq_zero.mp (Nat.le_zero.mp h1)
    subst he
    cases f2 <;> rfl
  | succ f ih =>
    intro f2 l h1 h2
    cases l with
    | nil => cases f2 <;> rfl
    | cons c rest =>
      cases f2 with
      | zero => simp at h2
      | succ f2' =>
        simp only [List.length_cons, Nat.add_le_add_iff_right] at h1 h2
        simp only [stripOrdinalsAux]
        by_cases hc : c.isDigit = true
        · rw [if_pos hc, if_pos hc]
          congr 1
          apply ih
          · have hdw := length_dropWhile_le Char.isDigit rest
            split
            · rw [List.length_drop]
              omega
            · omega
          · have hdw := length_dropWhile_le Char.isDigit rest
            split
            · rw [List.length_drop]
              omega
            · omega
        · rw [if_neg hc, if_neg hc]
          congr 1
          exact ih f2' rest h1 h2

theorem stripOrdinals_cons_nodigit {c : Char} (hc : c.isDigit = false)
    (l : Str) : stripOrdinals (c :: l) = c :: stripOrdinals l := by
  show stripOrdinalsAux (c :: l).length (c :: l) = _
  simp only [List.length_cons, stripOrdinalsAux]
  rw [if_neg (by simp [hc])]
  rfl

theorem stripOrdinals_cons_digit {c : Char} (hc : c.isDigit = true) (l : Str) :
    stripOrdinals (c :: l) =
      (c :: l.takeWhile Char.isDigit) ++
        stripOrdinals (if isOrdSfx (l.dropWhile Char.isDigit) then
            (l.dropWhile Char.isDigit).drop 2
          else l.dropWhile Char.isDigit) := by
  show stripOrdinalsAux (c :: l).length (c :: l) = _
  simp only [List.length_cons, stripOrdinalsAux]
  rw [if_pos hc]
  congr 1
  apply stripOrdinalsAux_congr
  · have hdw := length_dropWhile_le Char.isDigit l
    split
    · rw [List.length_drop]
      omega
    · omega
  · exact le_rfl

theorem stripOrdinals_nodigit_append {a : Str}
    (ha : ∀ c ∈ a, c.isDigit = false) (b : Str) :
    stripOrdinals (a ++ b) = a ++ stripOrdinals b := by
  induction a with
  | nil => rfl
  | cons c a' ih =>
    rw [List.cons_append,
      stripOrdinals_cons_nodigit (ha c (by simp)),
      ih (fun z hz => ha z (by simp [hz])), List.cons_append]

theorem stripOrdinals_digits_sfx {t : Str} (ht : t ≠ [])
    (hd : ∀ c ∈ t, c.isDigit = true) {s : Str} (hs : s ∈ ordSuffixes)
    (r : Str) : stripOrdinals (t ++ (s ++ r)) = t ++ stripOrdinals r := by
  have hs4 : s = ['s', 't'] ∨ s = ['n', 'd'] ∨ s = ['r', 'd'] ∨
      s = ['t', 'h'] := by
    simpa [ordSuffixes] using hs
  cases t with
  | nil => exact absurd rfl ht
  | cons c t' =>
    have hc : c.isDigit = true := hd c (by simp)
    have ht' : ∀ x ∈ t', x.isDigit = true := fun z hz => hd z (by simp [hz])
    obtain ⟨s1, s2, rfl, hs1, hsfx⟩ :
        ∃ s1 s2, s = [s1, s2] ∧ s1.isDigit = false ∧
          ∀ q : Str, isOrdSfx (s1 :: s2 :: q) = true := by
      rcases hs4 with rfl | rfl | rfl | rfl
      · exact ⟨'s', 't', rfl, by decide, fun q => rfl⟩
      · exact ⟨'n', 'd', rfl, by decide, fun q => rfl⟩
      · exact ⟨'r', 'd', rfl, by decide, fun q => rfl⟩
      · exact ⟨'t', 'h', rfl, by decide, fun q => rfl⟩
    simp only [List.cons_append, List.nil_append]
    rw [stripOrdinals_cons_digit hc,
      takeWhile_append_stop ht' hs1 _,
      dropWhile_append_stop ht' hs1 _,
      if_pos (hsfx r), List.drop_succ_cons, List.drop_succ_cons,
      List.drop_zero, List.cons_append]

theorem stripOrdinals_digits_stop {t : Str} (ht : t ≠ [])
    (hd : ∀ c ∈ t, c.isDigit = true) {y : Char} (hy : y.isDigit = false)
    (r : Str) (hsfx : isOrdSfx (y :: r) = false) :
    stripOrdinals (t ++ y :: r) = t ++ stripOrdinals (y :: r) := by
  cases t with
  | nil => exact absurd rfl ht
  | cons c t' =>
    have hc : c.isDigit = true := hd c (by simp)
    have ht' : ∀ x ∈ t', x.isDigit = true := fun z hz => hd z (by simp [hz])
    rw [List.cons_append, stripOrdinals_cons_digit hc,
      takeWhile_append_stop ht' hy _, dropWhile_append_stop ht' hy _,
      if_neg (by simp [hsfx]), List.cons_append]

/-! ### Date-format lemmas -/

theorem weekday_no_digit_space_comma {wd : Nat} (h : wd < 7) :
    (∀ c ∈ weekdayNames.getD wd [], c.isDigit = false) ∧
    (∀ c ∈ weekdayNames.getD wd [], c ≠ ' ') ∧
    (∀ c ∈ weekdayNames.getD wd [], c ≠ ',') ∧
    weekdayNames.getD wd [] ≠ [] := by
  interval_cases wd <;> exact ⟨by decide, by decide, by decide, by decide⟩

theorem month_no_digit_space_comma {mo : Nat} (h : mo < 12) :
    (∀ c ∈ monthNames.getD mo [], c.isDigit = false) ∧
    (∀ c ∈ monthNames.getD mo [], c ≠ ' ') ∧
    (∀ c ∈ monthNames.getD mo [], c ≠ ',') ∧
    monthNames.getD mo [] ≠ [] := by
  interval_cases mo <;> exact ⟨by decide, by decide, by decide, by decide⟩

theorem findCI_weekday {wd : Nat} (h : wd < 7) :
    findCI weekdayNames (weekdayNames.getD wd []) = some wd := by
  interval_cases wd <;> decide

theorem findCI_month {mo : Nat} (h : mo < 12) :
    findCI monthNames (monthNames.getD mo []) = some mo := by
  interval_cases mo <;> decide

theorem parse2_natChars {n : Nat} (h : n ≤ 99) : parse2 (natChars n) = some n := by
  unfold parse2
  rw [if_pos ⟨allDigits_natChars n, natChars_ne_nil n, natChars_length_le_two h⟩,
    digitsVal_natChars]

theorem parse2_pad2 {n : Nat} (h : n ≤ 99) : parse2 (pad2 n) = some n := by
  unfold parse2
  rw [if_pos ⟨allDigits_pad2 n, pad2_ne_nil n, le_of_eq (pad2_length_two h)⟩,
    digitsVal_pad2 h]

theorem parse4_natChars {n : Nat} (h1 : 1000 ≤ n) (h2 : n ≤ 9999) :
    parse4 (natChars n) = some n := by
  unfold parse4
  rw [if_pos ⟨allDigits_natChars n, natChars_length_four h1 h2⟩,
    digitsVal_natChars]

theorem daysInMonth_le_31 (y m : Nat) : daysInMonth y m ≤ 31 := by
  unfold daysInMonth
  split
  · split <;> omega
  · split <;> omega

theorem filter_ne_comma_digits {t : Str} (hd : ∀ c ∈ t, c.isDigit = true) :
    t.filter (fun c => c ≠ ',') = t := by
  rw [List.filter_eq_self]
  intro c hc
  simpa using isDigit_ne ',' (hd c hc) (by decide)

theorem cleanDate_mkDateStr (wd mo d sfx y h mi : Nat) (comma pm : Bool)
    (hwd : wd < 7) (hmo : mo < 12) (hsfx : sfx < 4) :
    cleanDate (mkDateStr wd mo d sfx y h mi comma pm) =
      weekdayNames.getD wd [] ++ ' ' :: (monthNames.getD mo [] ++ ' ' ::
        (natChars d ++ ' ' :: (natChars y ++ ' ' :: (natChars h ++ ':' ::
        pad2 mi ++ ' ' :: (if pm then "PM".data else "AM".data))))) := by
  obtain ⟨hwd1, hwd2, hwd3, hwd4⟩ := weekday_no_digit_space_comma hwd
  obtain ⟨hmo1, hmo2, hmo3, hmo4⟩ := month_no_digit_space_comma hmo
  have hsfx4 : ordSuffixes.getD sfx [] ∈ ordSuffixes := by
    interval_cases sfx <;> decide
  have hPd : ∀ c ∈ (if pm then "PM".data else "AM".data), c.isDigit = false := by
    cases pm <;> decide
  have hPc : (if pm then "PM".data else "AM".data).filter (fun c => c ≠ ',') =
      (if pm then "PM".data else "AM".data) := by
    cases pm <;> decide
  have hstrip : stripOrdinals (mkDateStr wd mo d sfx y h mi comma pm) =
      weekdayNames.getD wd [] ++ ' ' :: (monthNames.getD mo [] ++ ' ' ::
        (natChars d ++ ((if comma then [','] else []) ++ ' ' ::
        (natChars y ++ ' ' :: (natChars h ++ ':' ::
        (pad2 mi ++ ' ' :: (if pm then "PM".data else "AM".data))))))) := by
    have hPP : stripOrdinals (if pm then "PM".data else "AM".data) =
        (if pm then "PM".data else "AM".data) := by
      cases pm <;> decide
    have hspace : ∀ q : Str, isOrdSfx (' ' :: q) = false := by
      intro q
      cases q <;> rfl
    have hcolon : ∀ q : Str, isOrdSfx (':' :: q) = false := by
      intro q
      cases q <;> rfl
    unfold mkDateStr
    simp only [List.append_assoc, List.cons_append, List.nil_append]
    rw [stripOrdinals_nodigit_append hwd1,
      stripOrdinals_cons_nodigit (by decide),
      stripOrdinals_nodigit_append hmo1,
      stripOrdinals_cons_nodigit (by decide),
      stripOrdinals_digits_sfx (natChars_ne_nil d) (natChars_digits d) hsfx4]
    cases comma with
    | true =>
      rw [show (if true = true then [','] else []) = [','] from rfl]
      simp only [List.cons_append, List.nil_append]
      rw [stripOrdinals_cons_nodigit (by decide),
        stripOrdinals_cons_nodigit (by decide),
        stripOrdinals_digits_stop (natChars_ne_nil y) (natChars_digits y)
          (by decide) _ (hspace _),
        stripOrdinals_cons_nodigit (by decide),
        stripOrdinals_digits_stop (natChars_ne_nil h) (natChars_digits h)
          (by decide) _ (hcolon _),
        stripOrdinals_cons_nodigit (by decide),
        stripOrdinals_digits_stop (pad2_ne_nil mi) (pad2_digits mi)
          (by decide) _ (hspace _),
        stripOrdinals_cons_nodigit (by decide), hPP]
    | false =>
      rw [show (if false = true then [','] else []) = ([] : Str) from rfl]
      simp only [List.nil_append]
      rw [stripOrdinals_cons_nodigit (by decide),
        stripOrdinals_digits_stop (natChars_ne_nil y) (natChars_digits y)
          (by decide) _ (hspace _),
        stripOrdinals_cons_nodigit (by decide),
        stripOrdinals_digits_stop (natChars_ne_nil h) (natChars_digits h)
          (by decide) _ (hcolon _),
        stripOrdinals_cons_nodigit (by decide),
        stripOrdinals_digits_stop (pad2_ne_nil mi) (pad2_digits mi)
          (by decide) _ (hspace _),
        stripOrdinals_cons_nodigit (by decide), hPP]
  unfold cleanDate
  rw [hstrip]
  simp only [List.filter_append, List.filter_cons]
  rw [List.filter_eq_self.mpr (fun c hc => by simpa using hwd3 c hc),
    List.filter_eq_self.mpr (fun c hc => by simpa using hmo3 c hc),
    filter_ne_comma_digits (natChars_digits d),
    filter_ne_comma_digits (natChars_digits y),
    filter_ne_comma_digits (natChars_digits h),
    filter_ne_comma_digits (pad2_digits mi), hPc]
  cases comma <;> simp

theorem words_cleanDate_mkDateStr (wd mo d sfx y h mi : Nat) (comma pm : Bool)
    (hwd : wd < 7) (hmo : mo < 12) (hsfx : sfx < 4) :
    words (cleanDate (mkDateStr wd mo d sfx y h mi comma pm)) =
      [weekdayNames.getD wd [], monthNames.getD mo [], natChars d, natChars y,
       natChars h ++ ':' :: pad2 mi,
       (if pm then "PM".data else "AM".data)] := by
  obtain ⟨hwd1, hwd2, hwd3, hwd4⟩ := weekday_no_digit_space_comma hwd
  obtain ⟨hmo1, hmo2, hmo3, hmo4⟩ := month_no_digit_space_comma hmo
  have hPs : ∀ c ∈ (if pm then "PM".data else "AM".data), c ≠ ' ' := by
    cases pm <;> decide
  have hPn : (if pm then "PM".data else "AM".data) ≠ [] := by
    cases pm <;> decide
  have hdigit_ns : ∀ (t : Str), (∀ c ∈ t, c.isDigit = true) →
      ∀ c ∈ t, c ≠ ' ' := fun t ht c hc => isDigit_ne ' ' (ht c hc) (by decide)
  rw [cleanDate_mkDateStr wd mo d sfx y h mi comma pm hwd hmo hsfx]
  rw [words_token hwd4 hwd2]
  rw [words_token hmo4 hmo2]
  rw [words_token (natChars_ne_nil d) (hdigit_ns _ (natChars_digits d))]
  rw [words_token (natChars_ne_nil y) (hdigit_ns _ (natChars_digits y))]
  rw [show natChars h ++ ':' :: pad2 mi ++ ' ' ::
      (if pm then "PM".data else "AM".data) =
      (natChars h ++ ':' :: pad2 mi) ++ ' ' ::
      (if pm then "PM".data else "AM".data) from by
    simp [List.append_assoc]]
  rw [words_token (by simp [natChars_ne_nil h])
    (by
      intro c hc
      rcases List.mem_append.mp hc with hm | hm
      · exact hdigit_ns _ (natChars_digits h) c hm
      · rcases List.mem_cons.mp hm with rfl | hm2
        · decide
        · exact hdigit_ns _ (pad2_digits mi) c hm2)]
  rw [words_last hPn hPs]

theorem mkValid_some {y mo d h mi : Nat} (h1 : 1 ≤ y) (h2 : 1 ≤ mo)
    (h3 : mo ≤ 12) (h4 : 1 ≤ d) (h5 : d ≤ daysInMonth y mo) (h6 : h ≤ 23)
    (h7 : mi ≤ 59) : mkValid y mo d h mi = some ⟨y, mo, d, h, mi⟩ := by
  unfold mkValid
  rw [if_pos ⟨h1, h2, h3, h4, h5, h6, h7⟩]

/-- C9 (amended): dates of the export shape
`"<weekday> <month> <day><st|nd|rd|th>[,] <year> <hour>:<minute> <AM|PM>"`.
The two `%I` parsers (`ticket_sheets/conversions.parse_date` and
`parse_ticket_sheet.date_sort_item`) strip the ordinal suffix and the
optional comma and honour the 12-hour clock
(`hour = h % 12 + 12·PM`); `event_breakdown.parse_date` (format `%H:%M %p`)
strips the suffix the same way but takes the hour digits literally and
ignores the `AM`/`PM` marker entirely. -/
theorem c9_date_format (wd mo d sfx y h mi : Nat) (comma pm : Bool)
    (hwd : wd < 7) (hmo : mo < 12) (hsfx : sfx < 4)
    (hd1 : 1 ≤ d) (hd2 : d ≤ daysInMonth y (mo + 1))
    (hy1 : 1000 ≤ y) (hy2 : y ≤ 9999)
    (hh1 : 1 ≤ h) (hh2 : h ≤ 12) (hmi : mi ≤ 59) :
    conversions.parse_date (mkDateStr wd mo d sfx y h mi comma pm) =
      some ⟨y, mo + 1, d, h % 12 + (if pm then 12 else 0), mi⟩ ∧
    parse_ticket_sheet.date_sort_item (mkDateStr wd mo d sfx y h mi comma pm) =
      some ⟨y, mo + 1, d, h % 12 + (if pm then 12 else 0), mi⟩ ∧
    event_breakdown.parse_date (mkDateStr wd mo d sfx y h mi comma pm) =
      some ⟨y, mo + 1, d, h, mi⟩ := by
  have htok := words_cleanDate_mkDateStr wd mo d sfx y h mi comma pm hwd hmo hsfx
  have hd31 : d ≤ 31 := le_trans hd2 (daysInMonth_le_31 y (mo + 1))
  have hsplit : splitOnChar ':' (natChars h ++ ':' :: pad2 mi) =
      [natChars h, pad2 mi] := by
    rw [splitOnChar_append
        (fun hm => absurd (natChars_digits h ':' hm) (by decide)),
      splitOnChar_not_mem
        (fun hm => absurd (pad2_digits mi ':' hm) (by decide))]
  have hmer : parseMer (if pm then "PM".data else "AM".data) = some pm := by
    cases pm <;> decide
  have hpm12 : (if pm then 12 else 0) ≤ 12 := by cases pm <;> simp
  have h12 : strptime12 (cleanDate (mkDateStr wd mo d sfx y h mi comma pm)) =
      some ⟨y, mo + 1, d, h % 12 + (if pm then 12 else 0), mi⟩ := by
    unfold strptime12
    rw [htok]
    simp only [Option.bind_eq_bind, findCI_weekday hwd, findCI_month hmo,
      Option.some_bind, parse2_natChars (le_trans hd31 (by omega)),
      parse4_natChars hy1 hy2]
    rw [if_neg (by omega)]
    simp only [Option.some_bind, hsplit]
    simp only [parse2_natChars (le_trans hh2 (by omega)), Option.some_bind]
    rw [if_neg (by omega)]
    simp only [parse2_pad2 (le_trans hmi (by omega)), Option.some_bind]
    rw [if_neg (by omega)]
    simp only [hmer, Option.some_bind]
    exact mkValid_some (by omega) (by omega) (by omega) hd1 hd2
      (by omega) hmi
  have h24 : strptime24 (cleanDate (mkDateStr wd mo d sfx y h mi comma pm)) =
      some ⟨y, mo + 1, d, h, mi⟩ := by
    unfold strptime24
    rw [htok]
    simp only [Option.bind_eq_bind, findCI_weekday hwd, findCI_month hmo,
      Option.some_bind, parse2_natChars (le_trans hd31 (by omega)),
      parse4_natChars hy1 hy2]
    rw [if_neg (by omega)]
    simp only [Option.some_bind, hsplit]
    simp only [parse2_natChars (le_trans hh2 (by omega)), Option.some_bind]
    rw [if_neg (by omega)]
    simp only [parse2_pad2 (le_trans hmi (by omega)), Option.some_bind]
    rw [if_neg (by omega)]
    simp only [hmer, Option.some_bind]
    exact mkValid_some (by omega) (by omega) (by omega) hd1 hd2
      (by omega) hmi
  exact ⟨h12, h12, h24⟩

/-- C9 counterexample: `event_breakdown.parse_date` does not honour the
12-hour clock: the PM variant of the spec's example parses to the same
11:30 as the AM variant (the `%H` directive takes the digits literally and
CPython ignores `%p` without `%I`), while `conversions.parse_date` maps it
to 23:30. -/
theorem c9_pm_counterexample :
    event_breakdown.parse_date "Saturday November 30th 2024 11:30 PM".data =
      some ⟨2024, 11, 30, 11, 30⟩ ∧
    event_breakdown.parse_date "Saturday November 30th 2024 11:30 AM".data =
      some ⟨2024, 11, 30, 11, 30⟩ ∧
    conversions.parse_date "Saturday November 30th 2024 11:30 PM".data =
      some ⟨2024, 11, 30, 23, 30⟩ := by
  refine ⟨by decide, by decide, by decide⟩

/-- C9 witness: the spec's example `Saturday November 30th 2024 11:30 AM`
(weekday index 5, month index 10, suffix index 3) parses to
2024-11-30 11:30 in all three parsers. -/
theorem c9_date_format_witness :
    mkDateStr 5 10 30 3 2024 11 30 false false =
      "Saturday November 30th 2024 11:30 AM".data ∧
    conversions.parse_date "Saturday November 30th 2024 11:30 AM".data =
      some ⟨2024, 11, 30, 11, 30⟩ :=
  ⟨by decide,
   by
    have := (c9_date_format 5 10 30 3 2024 11 30 false false
      (by decide) (by decide) (by decide) (by decide) (by decide)
      (by decide) (by decide) (by decide) (by decide) (by decide)).1
    rw [show mkDateStr 5 10 30 3 2024 11 30 false false =
      "Saturday November 30th 2024 11:30 AM".data from by decide] at this
    exact this⟩

/-- C2 counterexample: the claim says an accompanying count is folded in as
a synthetic additional ticket line `"Adult: <n> (£<v>)"` leaving pre-existing
Adult lines intact, but the `include_accompanying` path
(`add_accompanying` / `update_tickets` in the `ticket_sheets` package)
instead rewrites the first existing Adult line to `"Adult: <n>"`: with one
accompanying adult and a pre-existing line `"Adult: 2 (£9.00)"`, the result
is just `"Adult: 1"` — the original quantity 2 and price £9.00 are gone and
no `(£...)` part is produced. -/
theorem c2_accompanying_counterexample :
    extractions.add_accompanying (some 1) none "Adult: 2 (£9.00)".data =
      "Adult: 1".data ∧
    "Adult: 1".data ≠ "Adult: 2 (£9.00)\nAdult: 1 (£9.00)".data := by
  exact ⟨by decide, by decide⟩

/-- C2 (amended): the two accompanying-fold implementations differ.  In
`event_breakdown.parse_tickets` (lines 208–216), a non-zero accompanying
field `"<n>£<v>"` appends the synthetic ticket line `"Adult: <n> (£<v>)"`
after the cell's own lines, so the records of every pre-existing line are
produced unchanged and the synthetic record is appended.  In
`include_accompanying`, the count is folded in via `update_tickets`, which
rewrites the first line starting with `"Adult:"` to `"Adult: <n>"`
(discarding that line's previous quantity and price) and appends
`"Adult: <n>"` (with no price part) when no such line exists. -/
theorem c2_accompanying_fold
    (b : parse_ticket_sheet.Booking) (cell n v : Str)
    (perLine : List (List event_breakdown.TicketRec))
    (recs2 : List event_breakdown.TicketRec)
    (ha : b.accompanyingAdult = some (n ++ '£' :: v))
    (hs : b.accompanyingSenior = none)
    (hn : '£' ∉ n) (hv : '£' ∉ v) (h0 : n ≠ "0".data)
    (hper : mapMo (event_breakdown.parseTicketLine b) (splitlines cell) =
      some perLine)
    (hrec : event_breakdown.parseTicketLine b
      ("Adult: ".data ++ n ++ " (£".data ++ v ++ [')']) = some recs2) :
    (event_breakdown.parse_tickets cell b =
      some (perLine.flatten ++ recs2)) ∧
    (∀ (lines : List Str) (name : Str) (val : Int),
      (∀ l ∈ lines, hasPre (name ++ [':']) l = false) →
      internal.update_tickets lines name val =
        lines ++ [internal.updLine name val]) ∧
    (∀ (pre post : List Str) (old name : Str) (val : Int),
      (∀ l ∈ pre, hasPre (name ++ [':']) l = false) →
      hasPre (name ++ [':']) old = true →
      internal.update_tickets (pre ++ old :: post) name val =
        pre ++ internal.updLine name val :: post) := by
  refine ⟨?_, ?_, ?_⟩
  · unfold event_breakdown.parse_tickets
    rw [ha, hs]
    have hacc : event_breakdown.accompanyingLine "Adult".data
        (some (n ++ '£' :: v)) =
        some ["Adult: ".data ++ n ++ " (£".data ++ v ++ [')']] := by
      have hne : n ++ '£' :: v ≠ [] := by simp
      simp only [event_breakdown.accompanyingLine, if_neg hne,
        splitOnChar_append hn, splitOnChar_not_mem hv, if_neg h0]
      rfl
    rw [hacc]
    show (Option.bind (mapMo (event_breakdown.parseTicketLine b)
      (splitlines cell ++ ["Adult: ".data ++ n ++ " (£".data ++ v ++ [')']]
        ++ [])) _) = _
    rw [List.append_nil,
      mapMo_append_some _ hper (by unfold mapMo; rw [hrec]; rfl)]
    simp [Option.bind]
  · intro lines name val h
    induction lines with
    | nil => rfl
    | cons l rest ih =>
      unfold internal.update_tickets
      rw [if_neg (by simp [h l (by simp)])]
      rw [ih (fun x hx => h x (by simp [hx]))]
      rfl
  · intro pre post old name val hpre hold
    induction pre with
    | nil =>
      unfold internal.update_tickets
      simp [hold]
    | cons l rest ih =>
      rw [List.cons_append]
      simp only [internal.update_tickets]
      rw [if_neg (by simp [hpre l (by simp)]),
        ih (fun x hx => hpre x (by simp [hx]))]
      rfl

/-- C2 witness: the amended statement applied to a booking with
`Accompanying Adult = "2£10.00"` and cell `"Adult: 1 (£9.00)"`: the original
Adult record `(Adult, 1, 9.0)` is produced unchanged and the synthetic
record `(Adult, 2, 10.0)` is appended; plus concrete `update_tickets`
replace and append cases. -/
theorem c2_accompanying_fold_witness :
    (mapMo (event_breakdown.parseTicketLine
        ⟨[], [], [], [], [], [], none, none, none, some "2£10.00".data, none, []⟩)
        (splitlines "Adult: 1 (£9.00)".data) =
      some [[("Adult".data, 1, 9)]] ∧
     event_breakdown.parseTicketLine
        ⟨[], [], [], [], [], [], none, none, none, some "2£10.00".data, none, []⟩
        ("Adult: ".data ++ "2".data ++ " (£".data ++ "10.00".data ++ [')']) =
      some [("Adult".data, 2, 10)]) ∧
    event_breakdown.parse_tickets "Adult: 1 (£9.00)".data
      ⟨[], [], [], [], [], [], none, none, none, some "2£10.00".data, none, []⟩ =
      some ([[("Adult".data, (1 : Int), (9 : ℚ))]].flatten ++
        [("Adult".data, 2, 10)]) :=
  ⟨⟨by with_unfolding_all rfl, by with_unfolding_all rfl⟩,
   (c2_accompanying_fold
      ⟨[], [], [], [], [], [], none, none, none, some "2£10.00".data, none, []⟩
      "Adult: 1 (£9.00)".data "2".data "10.00".data
      [[("Adult".data, 1, 9)]] [("Adult".data, 2, 10)]
      rfl rfl (by decide) (by decide) (by decide)
      (by with_unfolding_all rfl) (by with_unfolding_all rfl)).1⟩

/-- C10: in `event_breakdown.parse_tickets`, a well-formed price-categories
line whose ticket name is exactly `Child` always produces two output records
— a `Child` record (the line quantity minus the infant count) and an
`Infant` record (the infant count, which is 0 when no attendee age text
matches an infant bracket) — and both carry unit price `0.0` regardless of
the unit price parsed from the line, while a line with any other ticket name
produces a single record carrying the parsed price. -/
theorem c10_child_line_split
    (b : parse_ticket_sheet.Booking) (line name fstr qtyTok priceTok : Str)
    (rest : List Str) (qty : Int) (price : ℚ) (ic : Nat)
    (ha : b.accompanyingAdult = none) (hs : b.accompanyingSenior = none)
    (hne : line ≠ []) (hnl : '\n' ∉ line)
    (hsplit : splitFirst ':' line = some (name, fstr))
    (hwords : words fstr = qtyTok :: priceTok :: rest)
    (hqty : parseInt qtyTok = some qty)
    (hprice : parseFloat ((priceTok.drop 2).dropLast) = some price)
    (hic : event_breakdown.infantCount b = some ic) :
    (name = "Child".data →
      event_breakdown.parse_tickets line b =
        some [("Child".data, qty - (ic : Int), 0), ("Infant".data, (ic : Int), 0)]) ∧
    (name ≠ "Child".data →
      event_breakdown.parse_tickets line b = some [(name, qty, price)]) ∧
    (∀ nov dec : Str, b.childAgeNov = some nov → b.childAgeDec = some dec →
      (∀ p ∈ splitOnChar '\n' nov ++ splitOnChar '\n' dec,
        containsSub "0 to 1 yr".data p = false ∧
        containsSub "1 to 2 yr".data p = false) →
      ic = 0) := by
  have hline : event_breakdown.parseTicketLine b line =
      (if name = "Child".data then
        some [("Child".data, qty - (ic : Int), 0), ("Infant".data, (ic : Int), 0)]
      else some [(name, qty, price)]) := by
    unfold event_breakdown.parseTicketLine
    rw [hsplit]
    simp only [Option.bind_eq_bind, Option.some_bind, hwords, hqty, hprice, hic]
    split
    · simp [Option.bind]
    · simp [Option.bind]
  have hmain : ∀ out, event_breakdown.parseTicketLine b line = some out →
      event_breakdown.parse_tickets line b = some out := by
    intro out hout
    unfold event_breakdown.parse_tickets
    rw [ha, hs]
    show (Option.bind (mapMo (event_breakdown.parseTicketLine b)
      (splitlines line ++ [] ++ [])) _) = _
    rw [List.append_nil, List.append_nil, splitlines_single hne hnl]
    show (Option.bind (mapMo (event_breakdown.parseTicketLine b) [line]) _) = _
    unfold mapMo
    rw [hout]
    show (Option.bind (match mapMo (event_breakdown.parseTicketLine b) [] with
      | some ys => some (out :: ys) | none => none) _) = _
    unfold mapMo
    simp [Option.bind, List.flatten]
  refine ⟨?_, ?_, ?_⟩
  · intro hname
    exact hmain _ (by rw [hline, if_pos hname])
  · intro hname
    exact hmain _ (by rw [hline, if_neg hname])
  · intro nov dec hn hd hno
    unfold event_breakdown.infantCount at hic
    rw [hn, hd] at hic
    simp only [Option.bind_eq_bind, Option.some_bind, Option.pure_def,
      Option.some.injEq] at hic
    have hfil : (splitOnChar '\n' nov ++ splitOnChar '\n' dec).filter
        (fun p => containsSub "0 to 1 yr".data p ||
          containsSub "1 to 2 yr".data p) = [] := by
      rw [List.filter_eq_nil_iff]
      intro p hp
      have := hno p hp
      simp [this.1, this.2]
    rw [hfil] at hic
    simpa using hic.symm

/-- C10 witness: a concrete booking with one `Child` line, a 5-year-old
attendee (no infant bracket), so the line yields `Child: 3` and `Infant: 0`,
both priced `0.0` although the line says `£7.00`. -/
theorem c10_child_line_split_witness :
    (splitFirst ':' "Child: 3 (£7.00)".data =
      some ("Child".data, " 3 (£7.00)".data) ∧
     parseFloat (((" (£7.00)".data.drop 1).drop 2).dropLast) = some 7 ∧
     event_breakdown.infantCount
       ⟨[], [], [], [], [], [], some "#1: 5 yrs old".data, some [], none,
         none, none, []⟩ = some 0) ∧
    event_breakdown.parse_tickets "Child: 3 (£7.00)".data
      ⟨[], [], [], [], [], [], some "#1: 5 yrs old".data, some [], none,
        none, none, []⟩ =
      some [("Child".data, 3 - ((0 : Nat) : Int), 0), ("Infant".data, ((0 : Nat) : Int), 0)] :=
  ⟨⟨by decide, by with_unfolding_all rfl, by decide⟩,
   (c10_child_line_split
      ⟨[], [], [], [], [], [], some "#1: 5 yrs old".data, some [], none,
        none, none, []⟩
      "Child: 3 (£7.00)".data "Child".data " 3 (£7.00)".data
      "3".data "(£7.00)".data [] 3 7 0
      rfl rfl (by decide) (by decide) (by decide) (by decide) (by decide)
      (by with_unfolding_all rfl) (by decide)).1 rfl⟩


end TicketSheets
